import Mathlib

/-!
# Octree marching cubes (`parallel_builder/tree_mesh_builder.cpp`)

A shallow embedding of `TreeMeshBuilder` and a verification of its specification.

Modelling conventions.

* `float` values are real numbers (`ℝ`); `sqrt` is `Real.sqrt`.  The constant
  `std::numeric_limits<float>::max()` is kept as the real number it denotes.
* `unsigned` values are natural numbers; triangle counts are not reduced
  modulo `2^32`.  The conversion of the `float` `halfEdge` to the `unsigned`
  parameter `gridSize` of the recursive call is truncation, `Nat.floor`.
* The OpenMP tasks of one fan-out are run one after the other in the order in
  which the source spawns them; `taskwait` is the end of that sequence.  The
  triangle sink `mTriangles` is passed through the calls explicitly.
* The recursion takes a fuel argument: every nested call consumes one unit and
  a call without fuel yields `none`.  Fuel `d + 1` therefore allows call chains
  that reach at most `d` levels below the call it is given to.
* Next to the returned count and the sink, a call yields a `CallTree`, a ghost
  record of which branch every invocation took.  It has no counterpart in the
  C++ state and is only used to state which calls were made.
* `BaseMeshBuilder` (the grid constants and the leaf cell evaluator
  `buildCube`) is not part of the sources; it is a parameter of the model.
-/

namespace ParallelBuilder

/-- A three-dimensional vector, `Vec3_t<T>`. -/
structure Vec3_t (α : Type) where
  x : α
  y : α
  z : α

/-- The default constructed `Vec3_t<float>()`: the origin. -/
def Vec3_t.zero : Vec3_t ℝ := ⟨0, 0, 0⟩

/-- The part of `ParametricScalarField` the builder reads: seed points and iso-level. -/
structure ParametricScalarField where
  getPoints : List (Vec3_t ℝ)
  getIsoLevel : ℝ

/-- The members of `BaseMeshBuilder` used by `TreeMeshBuilder`.  `buildCube offset field`
gives the count the leaf cell evaluator reports for the unit cell at `offset` together
with the triangles it hands to `emitTriangle`, in order. -/
structure BaseMeshBuilder (Tri : Type) where
  mGridSize : ℕ
  mGridResolution : ℝ
  buildCube : Vec3_t ℝ → ParametricScalarField → ℕ × List Tri

/-- The member `const unsigned mCutOff = 1`. -/
def mCutOff : ℕ := 1

/-- The value of `std::numeric_limits<float>::max()`, `(2 - 2^-23) * 2^127`. -/
def floatMax : ℝ := (2 ^ 24 - 1) * 2 ^ 104

/-- The three accumulating assignments to `distanceSquared` in `evaluateFieldAt`. -/
def distanceSquared (pos point : Vec3_t ℝ) : ℝ :=
  (pos.x - point.x) * (pos.x - point.x)
    + (pos.y - point.y) * (pos.y - point.y)
    + (pos.z - point.z) * (pos.z - point.z)

/-- The method `TreeMeshBuilder::evaluateFieldAt`: the loop folds `std::min` over the seed
points starting from `floatMax`, and one square root is taken at the end. -/
noncomputable def evaluateFieldAt (pos : Vec3_t ℝ) (field : ParametricScalarField) : ℝ :=
  Real.sqrt (field.getPoints.foldl (fun value point => min value (distanceSquared pos point))
    floatMax)

/-- The method `TreeMeshBuilder::emitTriangle`: `mTriangles.push_back(triangle)`. -/
def emitTriangle {Tri : Type} (mTriangles : List Tri) (triangle : Tri) : List Tri :=
  mTriangles ++ [triangle]

/-- Ghost record of one invocation of `octreeDevider`. -/
inductive CallTree where
  /-- The base case: `buildCube` was invoked for the unit cell at `cubeOffset`. -/
  | cell (cubeOffset : Vec3_t ℝ) : CallTree
  /-- The prune test succeeded: the field was sampled at `mid` and 0 was returned. -/
  | pruned (cubeOffset : Vec3_t ℝ) (gridSize : ℕ) (mid : Vec3_t ℝ) : CallTree
  /-- The fan-out: the field was sampled at `mid` and the eight tasks ran. -/
  | split (cubeOffset : Vec3_t ℝ) (gridSize : ℕ) (mid : Vec3_t ℝ)
      (t1 t2 t3 t4 t5 t6 t7 t8 : CallTree) : CallTree

/-- The local constant `realEdgeSize` of `octreeDevider`. -/
def realEdgeSize {Tri : Type} (b : BaseMeshBuilder Tri) (gridSize : ℕ) : ℝ :=
  (gridSize : ℝ) * b.mGridResolution

/-- The local constant `rightSideCondition` of `octreeDevider`. -/
noncomputable def rightSideCondition {Tri : Type} (b : BaseMeshBuilder Tri)
    (field : ParametricScalarField) (gridSize : ℕ) : ℝ :=
  field.getIsoLevel + (Real.sqrt 3 / 2) * realEdgeSize b gridSize

/-- The local constant `halfEdge` of `octreeDevider`, `gridSize/2.0f`. -/
noncomputable def halfEdge (gridSize : ℕ) : ℝ := (gridSize : ℝ) / 2

/-- The local constant `midCubeOffset` of `octreeDevider`. -/
noncomputable def midCubeOffset {Tri : Type} (b : BaseMeshBuilder Tri) (cubeOffset : Vec3_t ℝ)
    (gridSize : ℕ) : Vec3_t ℝ :=
  ⟨(cubeOffset.x + halfEdge gridSize) * b.mGridResolution,
   (cubeOffset.y + halfEdge gridSize) * b.mGridResolution,
   (cubeOffset.z + halfEdge gridSize) * b.mGridResolution⟩

/-- The local constant `leftSideCondition` of `octreeDevider`. -/
noncomputable def leftSideCondition {Tri : Type} (b : BaseMeshBuilder Tri)
    (field : ParametricScalarField) (cubeOffset : Vec3_t ℝ) (gridSize : ℕ) : ℝ :=
  evaluateFieldAt (midCubeOffset b cubeOffset gridSize) field

/-- The method `TreeMeshBuilder::octreeDevider`.  The result is the returned
`totalTriangles`, the sink `mTriangles` after the call, and the ghost call tree. -/
noncomputable def octreeDevider {Tri : Type} (b : BaseMeshBuilder Tri) :
    ℕ → ParametricScalarField → Vec3_t ℝ → ℕ → List Tri → Option (ℕ × List Tri × CallTree)
  | 0, _, _, _, _ => none
  | fuel + 1, field, cubeOffset, gridSize, mTriangles =>
    if gridSize = mCutOff then
      let tmp := b.buildCube cubeOffset field
      some (0 + tmp.1, tmp.2.foldl emitTriangle mTriangles, CallTree.cell cubeOffset)
    else
      if leftSideCondition b field cubeOffset gridSize > rightSideCondition b field gridSize then
        some (0, mTriangles, CallTree.pruned cubeOffset gridSize (midCubeOffset b cubeOffset gridSize))
      else
        let h := halfEdge gridSize
        let index1 : Vec3_t ℝ := ⟨cubeOffset.x, cubeOffset.y, cubeOffset.z⟩
        let index2 : Vec3_t ℝ := ⟨cubeOffset.x + h, cubeOffset.y, cubeOffset.z⟩
        let index3 : Vec3_t ℝ := ⟨cubeOffset.x, cubeOffset.y + h, cubeOffset.z⟩
        let index4 : Vec3_t ℝ := ⟨cubeOffset.x, cubeOffset.y, cubeOffset.z + h⟩
        let index5 : Vec3_t ℝ := ⟨cubeOffset.x + h, cubeOffset.y + h, cubeOffset.z⟩
        let index6 : Vec3_t ℝ := ⟨cubeOffset.x + h, cubeOffset.y, cubeOffset.z + h⟩
        let index7 : Vec3_t ℝ := ⟨cubeOffset.x, cubeOffset.y + h, cubeOffset.z + h⟩
        let index8 : Vec3_t ℝ := ⟨cubeOffset.x + h, cubeOffset.y + h, cubeOffset.z + h⟩
        (octreeDevider b fuel field index1 ⌊h⌋₊ mTriangles).bind fun r1 =>
        (octreeDevider b fuel field index2 ⌊h⌋₊ r1.2.1).bind fun r2 =>
        (octreeDevider b fuel field index3 ⌊h⌋₊ r2.2.1).bind fun r3 =>
        (octreeDevider b fuel field index4 ⌊h⌋₊ r3.2.1).bind fun r4 =>
        (octreeDevider b fuel field index5 ⌊h⌋₊ r4.2.1).bind fun r5 =>
        (octreeDevider b fuel field index6 ⌊h⌋₊ r5.2.1).bind fun r6 =>
        (octreeDevider b fuel field index7 ⌊h⌋₊ r6.2.1).bind fun r7 =>
        (octreeDevider b fuel field index8 ⌊h⌋₊ r7.2.1).bind fun r8 =>
        some (0 + r1.1 + r2.1 + r3.1 + r4.1 + r5.1 + r6.1 + r7.1 + r8.1, r8.2.1,
          CallTree.split cubeOffset gridSize (midCubeOffset b cubeOffset gridSize)
            r1.2.2 r2.2.2 r3.2.2 r4.2.2 r5.2.2 r6.2.2 r7.2.2 r8.2.2)

/-- The method `TreeMeshBuilder::marchCubes`: one call of `octreeDevider` on the whole
domain, origin `Vec3_t<float>()` and edge `mGridSize`. -/
noncomputable def marchCubes {Tri : Type} (b : BaseMeshBuilder Tri) (fuel : ℕ)
    (field : ParametricScalarField) (mTriangles : List Tri) :
    Option (ℕ × List Tri × CallTree) :=
  octreeDevider b fuel field Vec3_t.zero b.mGridSize mTriangles

/-! ### Specification-side notions -/

/-- The real number `d` is the Euclidean distance from `pos` to the closest seed point of
`field`: it is the square root of the least squared distance to a seed, and it is the least
of the distances to the seeds. -/
def IsNearestSeedDistance (pos : Vec3_t ℝ) (field : ParametricScalarField) (d : ℝ) : Prop :=
  ∃ s ∈ field.getPoints,
    (∀ s' ∈ field.getPoints, distanceSquared pos s ≤ distanceSquared pos s') ∧
    d = Real.sqrt (distanceSquared pos s) ∧
    ∀ s' ∈ field.getPoints, d ≤ Real.sqrt (distanceSquared pos s')

/-- The point `p` of world space lies in the closed cube `[o*res, (o+n)*res]^3` covered by
the region with origin `o` and edge `n`. -/
def InCube {Tri : Type} (b : BaseMeshBuilder Tri) (o : Vec3_t ℝ) (n : ℕ) (p : Vec3_t ℝ) : Prop :=
  (o.x * b.mGridResolution ≤ p.x ∧ p.x ≤ (o.x + n) * b.mGridResolution) ∧
  (o.y * b.mGridResolution ≤ p.y ∧ p.y ≤ (o.y + n) * b.mGridResolution) ∧
  (o.z * b.mGridResolution ≤ p.z ∧ p.z ≤ (o.z + n) * b.mGridResolution)

/-- The unit cell with origin `q` lies inside the region with origin `o` and edge `n`. -/
def CellInRegion (o : Vec3_t ℝ) (n : ℕ) (q : Vec3_t ℝ) : Prop :=
  (o.x ≤ q.x ∧ q.x + 1 ≤ o.x + n) ∧ (o.y ≤ q.y ∧ q.y + 1 ≤ o.y + n) ∧
  (o.z ≤ q.z ∧ q.z + 1 ≤ o.z + n)

/-- The world position of the corner `(dx, dy, dz)` of the unit cell with origin `q`. -/
def cubeCorner {Tri : Type} (b : BaseMeshBuilder Tri) (q : Vec3_t ℝ) (dx dy dz : Fin 2) :
    Vec3_t ℝ :=
  ⟨(q.x + (dx : ℕ)) * b.mGridResolution, (q.y + (dy : ℕ)) * b.mGridResolution,
   (q.z + (dz : ℕ)) * b.mGridResolution⟩

/-- All 8 corner field values of the unit cell with origin `q` exceed the iso-level. -/
def CornersAbove {Tri : Type} (b : BaseMeshBuilder Tri) (field : ParametricScalarField)
    (q : Vec3_t ℝ) : Prop :=
  ∀ dx dy dz : Fin 2, field.getIsoLevel < evaluateFieldAt (cubeCorner b q dx dy dz) field

/-- The leaf cell evaluator produces no triangle (reports 0 and emits nothing) for a cell
whose 8 corner field values all exceed the iso-level. -/
def LeafSilentAboveIso {Tri : Type} (b : BaseMeshBuilder Tri) (field : ParametricScalarField) :
    Prop :=
  ∀ q : Vec3_t ℝ, CornersAbove b field q → b.buildCube q field = (0, [])

/-- The origins of the `n^3` unit cells of the region with origin `o` and edge `n`. -/
def unitCells (o : Vec3_t ℝ) (n : ℕ) : List (Vec3_t ℝ) :=
  (List.range n).flatMap fun (i : ℕ) => (List.range n).flatMap fun (j : ℕ) =>
    (List.range n).map fun (l : ℕ) =>
      (⟨o.x + (i : ℝ), o.y + (j : ℝ), o.z + (l : ℝ)⟩ : Vec3_t ℝ)

/-- The brute-force sweep: the leaf cell evaluator is called on every unit cell of the
region, with no pruning.  The result is the sum of the reported counts and the sink after
all emissions. -/
def bruteForce {Tri : Type} (b : BaseMeshBuilder Tri) (field : ParametricScalarField)
    (o : Vec3_t ℝ) (n : ℕ) (mTriangles : List Tri) : ℕ × List Tri :=
  (unitCells o n).foldl
    (fun acc q => (acc.1 + (b.buildCube q field).1, (b.buildCube q field).2.foldl emitTriangle acc.2))
    (0, mTriangles)

/-- The number of levels of nested calls below the root of a call tree. -/
def CallTree.depth : CallTree → ℕ
  | CallTree.cell _ => 0
  | CallTree.pruned _ _ _ => 0
  | CallTree.split _ _ _ t1 t2 t3 t4 t5 t6 t7 t8 =>
    1 + max t1.depth (max t2.depth (max t3.depth (max t4.depth (max t5.depth
      (max t6.depth (max t7.depth t8.depth))))))

/-- The unit cells on which `buildCube` was invoked, in call order. -/
def CallTree.cells : CallTree → List (Vec3_t ℝ)
  | CallTree.cell o => [o]
  | CallTree.pruned _ _ _ => []
  | CallTree.split _ _ _ t1 t2 t3 t4 t5 t6 t7 t8 =>
    t1.cells ++ t2.cells ++ t3.cells ++ t4.cells ++ t5.cells ++ t6.cells ++ t7.cells ++ t8.cells

/-- The positions at which `octreeDevider` sampled the field for its prune test, in call
order. -/
def CallTree.samples : CallTree → List (Vec3_t ℝ)
  | CallTree.cell _ => []
  | CallTree.pruned _ _ mid => [mid]
  | CallTree.split _ _ mid t1 t2 t3 t4 t5 t6 t7 t8 =>
    mid :: (t1.samples ++ t2.samples ++ t3.samples ++ t4.samples ++ t5.samples ++ t6.samples
      ++ t7.samples ++ t8.samples)

/-- The region (origin and edge) a call tree was invoked on. -/
def CallTree.region : CallTree → Vec3_t ℝ × ℕ
  | CallTree.cell o => (o, mCutOff)
  | CallTree.pruned o n _ => (o, n)
  | CallTree.split o n _ _ _ _ _ _ _ _ _ => (o, n)

/-- The call trees of the recursive calls made directly by the root call, in call order. -/
def CallTree.children : CallTree → List CallTree
  | CallTree.cell _ => []
  | CallTree.pruned _ _ _ => []
  | CallTree.split _ _ _ t1 t2 t3 t4 t5 t6 t7 t8 => [t1, t2, t3, t4, t5, t6, t7, t8]

/-- The origin `o + (a*n/2, b*n/2, c*n/2)` of the octant `(a, b, c)` of the region with
origin `o` and edge `n`. -/
noncomputable def octantOrigin (o : Vec3_t ℝ) (n : ℕ) (a b c : ℕ) : Vec3_t ℝ :=
  ⟨o.x + (a : ℝ) * (n : ℝ) / 2, o.y + (b : ℝ) * (n : ℝ) / 2, o.z + (c : ℝ) * (n : ℝ) / 2⟩

/-- The octant indices `(a, b, c)` with `a`, `b`, `c` in `{0, 1}`. -/
def allOctants : List (ℕ × ℕ × ℕ) :=
  [0, 1].flatMap fun a => [0, 1].flatMap fun b => [0, 1].map fun c => (a, b, c)

/-- The world position of the corner `(a, b, c)` of the region with origin `o` and edge `n`. -/
def regionCorner {Tri : Type} (b : BaseMeshBuilder Tri) (o : Vec3_t ℝ) (n : ℕ) (dx dy dz : ℕ) :
    Vec3_t ℝ :=
  ⟨(o.x + (dx : ℝ) * (n : ℝ)) * b.mGridResolution, (o.y + (dy : ℝ) * (n : ℝ)) * b.mGridResolution,
   (o.z + (dz : ℝ) * (n : ℝ)) * b.mGridResolution⟩

/-- The regions (origin and edge) of all invocations of `octreeDevider` recorded in a call
tree: the root call first, then those of the recursive calls in call order. -/
def CallTree.calls : CallTree → List (Vec3_t ℝ × ℕ)
  | CallTree.cell o => [(o, mCutOff)]
  | CallTree.pruned o n _ => [(o, n)]
  | CallTree.split o n _ t1 t2 t3 t4 t5 t6 t7 t8 =>
    (o, n) :: (t1.calls ++ t2.calls ++ t3.calls ++ t4.calls ++ t5.calls ++ t6.calls ++ t7.calls
      ++ t8.calls)

/-- The regions of the invocations that returned at the prune test, in call order. -/
def CallTree.prunedRegions : CallTree → List (Vec3_t ℝ × ℕ)
  | CallTree.cell _ => []
  | CallTree.pruned o n _ => [(o, n)]
  | CallTree.split _ _ _ t1 t2 t3 t4 t5 t6 t7 t8 =>
    t1.prunedRegions ++ t2.prunedRegions ++ t3.prunedRegions ++ t4.prunedRegions
      ++ t5.prunedRegions ++ t6.prunedRegions ++ t7.prunedRegions ++ t8.prunedRegions

/-- The regions of the invocations that fanned out into their octants, in call order. -/
def CallTree.splitRegions : CallTree → List (Vec3_t ℝ × ℕ)
  | CallTree.cell _ => []
  | CallTree.pruned _ _ _ => []
  | CallTree.split o n _ t1 t2 t3 t4 t5 t6 t7 t8 =>
    (o, n) :: (t1.splitRegions ++ t2.splitRegions ++ t3.splitRegions ++ t4.splitRegions
      ++ t5.splitRegions ++ t6.splitRegions ++ t7.splitRegions ++ t8.splitRegions)

/-- The region with origin `o` and edge `m` is well formed for a domain of size `n`: the
edge is a power of two between the cutoff and `n`, the origin coordinates are natural
multiples of the edge, and the region lies inside `[0, n]^3`. -/
def RegionInvariant (n : ℕ) (o : Vec3_t ℝ) (m : ℕ) : Prop :=
  (∃ j : ℕ, m = 2 ^ j) ∧ mCutOff ≤ m ∧ m ≤ n ∧
  ∃ a b c : ℕ, o = ⟨((a * m : ℕ) : ℝ), ((b * m : ℕ) : ℝ), ((c * m : ℕ) : ℝ)⟩ ∧
    a * m + m ≤ n ∧ b * m + m ≤ n ∧ c * m + m ≤ n

/-- The region with origin `q` and edge `m` is an aligned sub-region of the region with
origin `o` and edge `2 ^ k`: its edge is a power of two, and its origin is offset from `o`
by natural multiples of its edge that keep it inside. -/
def SubRegion (o : Vec3_t ℝ) (k : ℕ) (q : Vec3_t ℝ) (m : ℕ) : Prop :=
  ∃ j : ℕ, j ≤ k ∧ m = 2 ^ j ∧
  ∃ a b c : ℕ, q = ⟨o.x + ((a * m : ℕ) : ℝ), o.y + ((b * m : ℕ) : ℝ), o.z + ((c * m : ℕ) : ℝ)⟩ ∧
    a * m + m ≤ 2 ^ k ∧ b * m + m ≤ 2 ^ k ∧ c * m + m ≤ 2 ^ k

/-- The call tree of a run of `octreeDevider` on the region with origin `o` and edge
`2 ^ k`, described without fuel: a base case for `k = 0`, otherwise the prune test of the
source decides between a pruned node and the fan-out into the eight octants of edge
`2 ^ (k - 1)`. -/
noncomputable def powTwoTree {Tri : Type} (b : BaseMeshBuilder Tri)
    (field : ParametricScalarField) : ℕ → Vec3_t ℝ → CallTree
  | 0, o => CallTree.cell o
  | k + 1, o =>
    if leftSideCondition b field o (2 ^ (k + 1)) > rightSideCondition b field (2 ^ (k + 1)) then
      CallTree.pruned o (2 ^ (k + 1)) (midCubeOffset b o (2 ^ (k + 1)))
    else
      CallTree.split o (2 ^ (k + 1)) (midCubeOffset b o (2 ^ (k + 1)))
        (powTwoTree b field k ⟨o.x, o.y, o.z⟩)
        (powTwoTree b field k ⟨o.x + 2 ^ k, o.y, o.z⟩)
        (powTwoTree b field k ⟨o.x, o.y + 2 ^ k, o.z⟩)
        (powTwoTree b field k ⟨o.x, o.y, o.z + 2 ^ k⟩)
        (powTwoTree b field k ⟨o.x + 2 ^ k, o.y + 2 ^ k, o.z⟩)
        (powTwoTree b field k ⟨o.x + 2 ^ k, o.y, o.z + 2 ^ k⟩)
        (powTwoTree b field k ⟨o.x, o.y + 2 ^ k, o.z + 2 ^ k⟩)
        (powTwoTree b field k ⟨o.x + 2 ^ k, o.y + 2 ^ k, o.z + 2 ^ k⟩)

/-- The order `(a, b, c)` in which `octreeDevider` spawns the tasks of its octants. -/
def taskOrder : List (ℕ × ℕ × ℕ) :=
  [(0, 0, 0), (1, 0, 0), (0, 1, 0), (0, 0, 1), (1, 1, 0), (1, 0, 1), (0, 1, 1), (1, 1, 1)]

/-- The origins of the octants of edge `m` of the region with origin `c` and edge `2 * m`,
in task order, for a region with natural coordinates. -/
def subOrigins (m : ℕ) (c : ℕ × ℕ × ℕ) : List (ℕ × ℕ × ℕ) :=
  taskOrder.map fun a => (c.1 + m * a.1, c.2.1 + m * a.2.1, c.2.2 + m * a.2.2)

/-- The origins of the 64 regions of edge 2 of a domain of size 8, in call order. -/
def edgeTwoOrder : List (ℕ × ℕ × ℕ) :=
  (subOrigins 4 (0, 0, 0)).flatMap (subOrigins 2)

/-- The region of edge 2 with origin `c` touches the centre `(4, 4, 4)` of a domain of
size 8: every origin coordinate is 2 or 4. -/
def touchesCentre (c : ℕ × ℕ × ℕ) : Bool :=
  (c.1 == 2 || c.1 == 4) && (c.2.1 == 2 || c.2.1 == 4) && (c.2.2 == 2 || c.2.2 == 4)

/-- The origins of the unit cells below the regions of edge 2 that touch the centre of a
domain of size 8, in call order. -/
def centreCellOrder : List (ℕ × ℕ × ℕ) :=
  (edgeTwoOrder.filter touchesCentre).flatMap (subOrigins 1)

/-- The 64 unit cells whose origin coordinates all lie in `{2, 3, 4, 5}`. -/
def centreCells : List (ℕ × ℕ × ℕ) :=
  [2, 3, 4, 5].flatMap fun i => [2, 3, 4, 5].flatMap fun j => [2, 3, 4, 5].map fun l => (i, j, l)

/-- The 64 origins of the regions of edge 2 that tile a domain of size 8. -/
def edgeTwoGrid : List (ℕ × ℕ × ℕ) :=
  [0, 2, 4, 6].flatMap fun i => [0, 2, 4, 6].flatMap fun j => [0, 2, 4, 6].map fun l => (i, j, l)

/-- The point with the natural coordinates `c`. -/
def natVec (c : ℕ × ℕ × ℕ) : Vec3_t ℝ := ⟨(c.1 : ℝ), (c.2.1 : ℝ), (c.2.2 : ℝ)⟩

/-- The field of the centre-seed scenario: a single seed at the centre `(4, 4, 4) * res` of a
domain of size 8, iso-level 0. -/
def centreSeedField (res : ℝ) : ParametricScalarField :=
  ⟨[⟨4 * res, 4 * res, 4 * res⟩], 0⟩

/-! ### Sample inputs -/

/-- A leaf cell evaluator that emits one triangle (tagged with the cell origin) for a cell
whose origin corner is not above the iso-level, and nothing otherwise. -/
noncomputable def originCornerCube (res : ℝ) (q : Vec3_t ℝ) (field : ParametricScalarField) :
    ℕ × List (Vec3_t ℝ) :=
  if field.getIsoLevel < evaluateFieldAt ⟨q.x * res, q.y * res, q.z * res⟩ field then (0, [])
  else (1, [q])

/-- A builder of grid size `n` and resolution 1 with the evaluator `originCornerCube`. -/
noncomputable def sampleBuilder (n : ℕ) : BaseMeshBuilder (Vec3_t ℝ) :=
  ⟨n, 1, originCornerCube 1⟩

/-- A builder of grid size `n` whose evaluator emits one triangle for every cell. -/
def constantBuilder (n : ℕ) : BaseMeshBuilder Unit :=
  ⟨n, 1, fun _ _ => (1, [()])⟩

/-- A builder of grid size 8 and resolution `2 ^ 64` whose evaluator emits nothing. -/
def hugeResolutionBuilder : BaseMeshBuilder Unit :=
  ⟨8, 2 ^ 64, fun _ _ => (0, [])⟩

/-- One seed in the middle of a domain of size 2, iso-level 1. -/
def nearField : ParametricScalarField := ⟨[⟨1, 1, 1⟩], 1⟩

/-- One seed far outside a domain of size 2, iso-level 0. -/
def farField : ParametricScalarField := ⟨[⟨100, 0, 0⟩], 0⟩

end ParallelBuilder

namespace ParallelBuilder

/-! ### The field sampler -/

theorem distanceSquared_nonneg (p q : Vec3_t ℝ) : 0 ≤ distanceSquared p q := by
  unfold distanceSquared
  nlinarith [mul_self_nonneg (p.x - q.x), mul_self_nonneg (p.y - q.y),
    mul_self_nonneg (p.z - q.z)]

theorem floatMax_pos : 0 < floatMax := by
  unfold floatMax
  norm_num

theorem foldl_min_le_init (f : Vec3_t ℝ → ℝ) (l : List (Vec3_t ℝ)) (v : ℝ) :
    l.foldl (fun value point => min value (f point)) v ≤ v := by
  induction l generalizing v with
  | nil => simp
  | cons a l ih => exact le_trans (ih _) (min_le_left _ _)

theorem foldl_min_le_mem (f : Vec3_t ℝ → ℝ) (l : List (Vec3_t ℝ)) (v : ℝ) (s : Vec3_t ℝ)
    (hs : s ∈ l) : l.foldl (fun value point => min value (f point)) v ≤ f s := by
  induction l generalizing v with
  | nil => simp at hs
  | cons a l ih =>
    rcases List.mem_cons.1 hs with h | h
    · subst h
      exact le_trans (foldl_min_le_init f l _) (min_le_right _ _)
    · exact ih _ h

theorem foldl_min_cases (f : Vec3_t ℝ → ℝ) (l : List (Vec3_t ℝ)) (v : ℝ) :
    l.foldl (fun value point => min value (f point)) v = v ∨
      ∃ s ∈ l, l.foldl (fun value point => min value (f point)) v = f s := by
  induction l generalizing v with
  | nil => simp
  | cons a l ih =>
    rcases ih (min v (f a)) with h | ⟨s, hs, h⟩
    · rcases min_choice v (f a) with hm | hm
      · left
        rw [List.foldl_cons, h, hm]
      · right
        exact ⟨a, List.mem_cons_self _ _, by rw [List.foldl_cons, h, hm]⟩
    · right
      exact ⟨s, List.mem_cons_of_mem _ hs, by rw [List.foldl_cons, h]⟩

theorem cauchy_schwarz_three (u1 u2 u3 v1 v2 v3 : ℝ) :
    (u1 * v1 + u2 * v2 + u3 * v3) ^ 2 ≤
      (u1 * u1 + u2 * u2 + u3 * u3) * (v1 * v1 + v2 * v2 + v3 * v3) := by
  nlinarith [sq_nonneg (u1 * v2 - u2 * v1), sq_nonneg (u1 * v3 - u3 * v1),
    sq_nonneg (u2 * v3 - u3 * v2)]

theorem sqrt_sum_triangle (u1 u2 u3 v1 v2 v3 : ℝ) :
    Real.sqrt ((u1 + v1) * (u1 + v1) + (u2 + v2) * (u2 + v2) + (u3 + v3) * (u3 + v3)) ≤
      Real.sqrt (u1 * u1 + u2 * u2 + u3 * u3) + Real.sqrt (v1 * v1 + v2 * v2 + v3 * v3) := by
  have hB : 0 ≤ u1 * u1 + u2 * u2 + u3 * u3 := by
    nlinarith [mul_self_nonneg u1, mul_self_nonneg u2, mul_self_nonneg u3]
  have hC : 0 ≤ v1 * v1 + v2 * v2 + v3 * v3 := by
    nlinarith [mul_self_nonneg v1, mul_self_nonneg v2, mul_self_nonneg v3]
  have hcs : u1 * v1 + u2 * v2 + u3 * v3
      ≤ Real.sqrt (u1 * u1 + u2 * u2 + u3 * u3) * Real.sqrt (v1 * v1 + v2 * v2 + v3 * v3) := by
    rw [← Real.sqrt_mul hB]
    exact Real.le_sqrt_of_sq_le (cauchy_schwarz_three u1 u2 u3 v1 v2 v3)
  rw [Real.sqrt_le_iff]
  refine ⟨add_nonneg (Real.sqrt_nonneg _) (Real.sqrt_nonneg _), ?_⟩
  have e1 := Real.sq_sqrt hB
  have e2 := Real.sq_sqrt hC
  nlinarith [e1, e2, hcs]

/-- The triangle inequality for the distance computed by `distanceSquared`. -/
theorem sqrt_distanceSquared_triangle (a m c : Vec3_t ℝ) :
    Real.sqrt (distanceSquared a c) ≤
      Real.sqrt (distanceSquared a m) + Real.sqrt (distanceSquared m c) := by
  have h := sqrt_sum_triangle (a.x - m.x) (a.y - m.y) (a.z - m.z) (m.x - c.x) (m.y - c.y)
    (m.z - c.z)
  have e : ∀ s t r : ℝ, s - t + (t - r) = s - r := fun s t r => by ring
  simpa only [distanceSquared, e] using h

/-- The sampled field changes by at most the distance between the sample positions. -/
theorem evaluateFieldAt_le_add (p c : Vec3_t ℝ) (field : ParametricScalarField) :
    evaluateFieldAt c field ≤ evaluateFieldAt p field + Real.sqrt (distanceSquared c p) := by
  unfold evaluateFieldAt
  rcases foldl_min_cases (distanceSquared p) field.getPoints floatMax with h | ⟨s, hs, h⟩
  · rw [h]
    exact le_trans (Real.sqrt_le_sqrt (foldl_min_le_init _ _ _))
      (le_add_of_nonneg_right (Real.sqrt_nonneg _))
  · rw [h]
    refine le_trans (Real.sqrt_le_sqrt (foldl_min_le_mem (distanceSquared c) _ _ s hs)) ?_
    rw [add_comm]
    exact sqrt_distanceSquared_triangle c p s

theorem foldl_min_attained (f : Vec3_t ℝ → ℝ) (l : List (Vec3_t ℝ)) (v : ℝ)
    (h : ∃ s ∈ l, f s ≤ v) :
    ∃ s ∈ l, l.foldl (fun value point => min value (f point)) v = f s := by
  rcases foldl_min_cases f l v with h1 | h1
  · obtain ⟨s, hs, hv⟩ := h
    refine ⟨s, hs, le_antisymm (foldl_min_le_mem f l v s hs) ?_⟩
    rw [h1]
    exact hv
  · exact h1

/-! ### Soundness of the prune test -/

theorem sq_le_of_between (lo hi c t h : ℝ) (hlo : lo ≤ t) (hhi : t ≤ hi) (h1 : c - lo = h)
    (h2 : hi - c = h) : (c - t) * (c - t) ≤ h * h := by
  have a1 : c - t ≤ h := by linarith
  have a2 : -h ≤ c - t := by linarith
  nlinarith [mul_nonneg (sub_nonneg.2 a1) (by linarith : (0:ℝ) ≤ c - t + h)]

/-- Every point of the cube of a region is within the half diagonal of the region's centre. -/
theorem sqrt_distanceSquared_mid_le {Tri : Type} (b : BaseMeshBuilder Tri) (o : Vec3_t ℝ) (n : ℕ)
    (hres : 0 ≤ b.mGridResolution) (p : Vec3_t ℝ) (hp : InCube b o n p) :
    Real.sqrt (distanceSquared (midCubeOffset b o n) p) ≤ Real.sqrt 3 / 2 * realEdgeSize b n := by
  obtain ⟨⟨hx1, hx2⟩, ⟨hy1, hy2⟩, ⟨hz1, hz2⟩⟩ := hp
  have hE : 0 ≤ realEdgeSize b n := mul_nonneg (Nat.cast_nonneg n) hres
  have h3 : Real.sqrt 3 ^ 2 = 3 := Real.sq_sqrt (by norm_num)
  rw [Real.sqrt_le_iff]
  refine ⟨mul_nonneg (div_nonneg (Real.sqrt_nonneg _) (by norm_num)) hE, ?_⟩
  have hx := sq_le_of_between _ _ ((o.x + halfEdge n) * b.mGridResolution) p.x
    (realEdgeSize b n / 2) hx1 hx2 (by unfold halfEdge realEdgeSize; ring)
    (by unfold halfEdge realEdgeSize; ring)
  have hy := sq_le_of_between _ _ ((o.y + halfEdge n) * b.mGridResolution) p.y
    (realEdgeSize b n / 2) hy1 hy2 (by unfold halfEdge realEdgeSize; ring)
    (by unfold halfEdge realEdgeSize; ring)
  have hz := sq_le_of_between _ _ ((o.z + halfEdge n) * b.mGridResolution) p.z
    (realEdgeSize b n / 2) hz1 hz2 (by unfold halfEdge realEdgeSize; ring)
    (by unfold halfEdge realEdgeSize; ring)
  have e : (Real.sqrt 3 / 2 * realEdgeSize b n) ^ 2
      = 3 * (realEdgeSize b n / 2 * (realEdgeSize b n / 2)) := by
    rw [mul_pow, div_pow, h3]; ring
  rw [e]
  unfold distanceSquared midCubeOffset
  simp only
  linarith

theorem cubeCorner_inCube {Tri : Type} (b : BaseMeshBuilder Tri) (o : Vec3_t ℝ) (n : ℕ)
    (hres : 0 ≤ b.mGridResolution) (q : Vec3_t ℝ) (hq : CellInRegion o n q) (dx dy dz : Fin 2) :
    InCube b o n (cubeCorner b q dx dy dz) := by
  obtain ⟨⟨hx1, hx2⟩, ⟨hy1, hy2⟩, ⟨hz1, hz2⟩⟩ := hq
  have hd : ∀ d : Fin 2, (0 : ℝ) ≤ ((d : ℕ) : ℝ) ∧ ((d : ℕ) : ℝ) ≤ 1 := by
    intro d
    refine ⟨Nat.cast_nonneg _, ?_⟩
    have : (d : ℕ) ≤ 1 := by omega
    exact_mod_cast this
  unfold InCube cubeCorner
  simp only
  refine ⟨⟨?_, ?_⟩, ⟨?_, ?_⟩, ⟨?_, ?_⟩⟩ <;>
    apply mul_le_mul_of_nonneg_right _ hres
  · linarith [(hd dx).1]
  · linarith [(hd dx).2]
  · linarith [(hd dy).1]
  · linarith [(hd dy).2]
  · linarith [(hd dz).1]
  · linarith [(hd dz).2]

theorem field_above_of_prune {Tri : Type} (b : BaseMeshBuilder Tri) (field : ParametricScalarField)
    (o : Vec3_t ℝ) (n : ℕ) (hres : 0 ≤ b.mGridResolution)
    (hprune : leftSideCondition b field o n > rightSideCondition b field n)
    (p : Vec3_t ℝ) (hp : InCube b o n p) : field.getIsoLevel < evaluateFieldAt p field := by
  have h1 := evaluateFieldAt_le_add p (midCubeOffset b o n) field
  have h2 := sqrt_distanceSquared_mid_le b o n hres p hp
  unfold leftSideCondition rightSideCondition at hprune
  linarith

/-! ### Unfolding the divider -/

theorem foldl_emitTriangle {Tri : Type} (ts sink : List Tri) :
    ts.foldl emitTriangle sink = sink ++ ts := by
  induction ts generalizing sink with
  | nil => simp
  | cons t ts ih => simp [List.foldl_cons, ih, emitTriangle]

theorem octreeDevider_zero {Tri : Type} (b : BaseMeshBuilder Tri) (field : ParametricScalarField)
    (o : Vec3_t ℝ) (n : ℕ) (sink : List Tri) : octreeDevider b 0 field o n sink = none := rfl

theorem octreeDevider_leaf {Tri : Type} (b : BaseMeshBuilder Tri) (fuel : ℕ) (field : ParametricScalarField)
    (o : Vec3_t ℝ) (sink : List Tri) :
    octreeDevider b (fuel + 1) field o 1 sink =
      some ((b.buildCube o field).1, sink ++ (b.buildCube o field).2, CallTree.cell o) := by
  simp [octreeDevider, mCutOff, foldl_emitTriangle]

theorem octreeDevider_prune {Tri : Type} (b : BaseMeshBuilder Tri) (fuel : ℕ) (field : ParametricScalarField)
    (o : Vec3_t ℝ) (n : ℕ) (sink : List Tri) (hn : n ≠ 1)
    (hp : leftSideCondition b field o n > rightSideCondition b field n) :
    octreeDevider b (fuel + 1) field o n sink =
      some (0, sink, CallTree.pruned o n (midCubeOffset b o n)) := by
  rw [octreeDevider, if_neg (by simpa [mCutOff] using hn), if_pos hp]

theorem octreeDevider_fanout {Tri : Type} (b : BaseMeshBuilder Tri) (fuel : ℕ) (field : ParametricScalarField)
    (o : Vec3_t ℝ) (n : ℕ) (sink : List Tri) (hn : n ≠ 1)
    (hp : ¬ leftSideCondition b field o n > rightSideCondition b field n) :
    octreeDevider b (fuel + 1) field o n sink =
      (octreeDevider b fuel field ⟨o.x, o.y, o.z⟩ ⌊halfEdge n⌋₊ sink).bind fun r1 =>
      (octreeDevider b fuel field ⟨o.x + halfEdge n, o.y, o.z⟩ ⌊halfEdge n⌋₊ r1.2.1).bind fun r2 =>
      (octreeDevider b fuel field ⟨o.x, o.y + halfEdge n, o.z⟩ ⌊halfEdge n⌋₊ r2.2.1).bind fun r3 =>
      (octreeDevider b fuel field ⟨o.x, o.y, o.z + halfEdge n⟩ ⌊halfEdge n⌋₊ r3.2.1).bind fun r4 =>
      (octreeDevider b fuel field ⟨o.x + halfEdge n, o.y + halfEdge n, o.z⟩ ⌊halfEdge n⌋₊
        r4.2.1).bind fun r5 =>
      (octreeDevider b fuel field ⟨o.x + halfEdge n, o.y, o.z + halfEdge n⟩ ⌊halfEdge n⌋₊
        r5.2.1).bind fun r6 =>
      (octreeDevider b fuel field ⟨o.x, o.y + halfEdge n, o.z + halfEdge n⟩ ⌊halfEdge n⌋₊
        r6.2.1).bind fun r7 =>
      (octreeDevider b fuel field ⟨o.x + halfEdge n, o.y + halfEdge n, o.z + halfEdge n⟩
        ⌊halfEdge n⌋₊ r7.2.1).bind fun r8 =>
      some (r1.1 + r2.1 + r3.1 + r4.1 + r5.1 + r6.1 + r7.1 + r8.1, r8.2.1,
        CallTree.split o n (midCubeOffset b o n)
          r1.2.2 r2.2.2 r3.2.2 r4.2.2 r5.2.2 r6.2.2 r7.2.2 r8.2.2) := by
  rw [octreeDevider, if_neg (by simpa [mCutOff] using hn), if_neg hp]
  simp only [zero_add]

/-- The count and the call tree of a call do not depend on the sink it starts from, and the
sink is only appended to. -/
theorem octreeDevider_frame_aux {Tri : Type} (b : BaseMeshBuilder Tri) (field : ParametricScalarField)
    (fuel : ℕ) : ∀ (o : Vec3_t ℝ) (n : ℕ), ∃ res : Option (ℕ × List Tri × CallTree),
      ∀ sink, octreeDevider b fuel field o n sink =
        res.map fun r => (r.1, sink ++ r.2.1, r.2.2) := by
  induction fuel with
  | zero => exact fun o n => ⟨none, fun sink => rfl⟩
  | succ fuel ih =>
    intro o n
    by_cases hn : n = 1
    · subst hn
      exact ⟨some ((b.buildCube o field).1, (b.buildCube o field).2, CallTree.cell o),
        fun sink => by rw [octreeDevider_leaf]; rfl⟩
    by_cases hp : leftSideCondition b field o n > rightSideCondition b field n
    · exact ⟨some (0, [], CallTree.pruned o n (midCubeOffset b o n)),
        fun sink => by rw [octreeDevider_prune b fuel field o n sink hn hp]; simp⟩
    obtain ⟨q1, h1⟩ := ih ⟨o.x, o.y, o.z⟩ ⌊halfEdge n⌋₊
    obtain ⟨q2, h2⟩ := ih ⟨o.x + halfEdge n, o.y, o.z⟩ ⌊halfEdge n⌋₊
    obtain ⟨q3, h3⟩ := ih ⟨o.x, o.y + halfEdge n, o.z⟩ ⌊halfEdge n⌋₊
    obtain ⟨q4, h4⟩ := ih ⟨o.x, o.y, o.z + halfEdge n⟩ ⌊halfEdge n⌋₊
    obtain ⟨q5, h5⟩ := ih ⟨o.x + halfEdge n, o.y + halfEdge n, o.z⟩ ⌊halfEdge n⌋₊
    obtain ⟨q6, h6⟩ := ih ⟨o.x + halfEdge n, o.y, o.z + halfEdge n⟩ ⌊halfEdge n⌋₊
    obtain ⟨q7, h7⟩ := ih ⟨o.x, o.y + halfEdge n, o.z + halfEdge n⟩ ⌊halfEdge n⌋₊
    obtain ⟨q8, h8⟩ := ih ⟨o.x + halfEdge n, o.y + halfEdge n, o.z + halfEdge n⟩ ⌊halfEdge n⌋₊
    refine ⟨q1.bind fun r1 => q2.bind fun r2 => q3.bind fun r3 => q4.bind fun r4 =>
      q5.bind fun r5 => q6.bind fun r6 => q7.bind fun r7 => q8.bind fun r8 =>
      some (r1.1 + r2.1 + r3.1 + r4.1 + r5.1 + r6.1 + r7.1 + r8.1,
        r1.2.1 ++ r2.2.1 ++ r3.2.1 ++ r4.2.1 ++ r5.2.1 ++ r6.2.1 ++ r7.2.1 ++ r8.2.1,
        CallTree.split o n (midCubeOffset b o n)
          r1.2.2 r2.2.2 r3.2.2 r4.2.2 r5.2.2 r6.2.2 r7.2.2 r8.2.2), fun sink => ?_⟩
    rw [octreeDevider_fanout b fuel field o n sink hn hp, h1]
    rcases q1 with _ | r1
    · rfl
    simp only [Option.map_some', Option.some_bind, h2]
    rcases q2 with _ | r2
    · rfl
    simp only [Option.map_some', Option.some_bind, h3]
    rcases q3 with _ | r3
    · rfl
    simp only [Option.map_some', Option.some_bind, h4]
    rcases q4 with _ | r4
    · rfl
    simp only [Option.map_some', Option.some_bind, h5]
    rcases q5 with _ | r5
    · rfl
    simp only [Option.map_some', Option.some_bind, h6]
    rcases q6 with _ | r6
    · rfl
    simp only [Option.map_some', Option.some_bind, h7]
    rcases q7 with _ | r7
    · rfl
    simp only [Option.map_some', Option.some_bind, h8]
    rcases q8 with _ | r8
    · rfl
    simp only [Option.map_some', Option.some_bind, List.append_assoc]

theorem octreeDevider_frame {Tri : Type} (b : BaseMeshBuilder Tri) (field : ParametricScalarField)
    (fuel : ℕ) (o : Vec3_t ℝ) (n : ℕ) (sink : List Tri) :
    octreeDevider b fuel field o n sink =
      (octreeDevider b fuel field o n []).map fun r => (r.1, sink ++ r.2.1, r.2.2) := by
  obtain ⟨res, h⟩ := octreeDevider_frame_aux b field fuel o n
  rw [h sink, h []]
  cases res <;> simp

theorem halfEdge_pow (k : ℕ) : halfEdge (2 ^ (k + 1)) = (2 : ℝ) ^ k := by
  unfold halfEdge
  push_cast
  rw [pow_succ]
  ring

theorem floor_halfEdge (n : ℕ) : ⌊halfEdge n⌋₊ = n / 2 := by
  unfold halfEdge
  have h : ⌊(n : ℝ) / ((2 : ℕ) : ℝ)⌋₊ = n / 2 := Nat.floor_div_eq_div n 2
  simpa using h

theorem floor_halfEdge_pow (k : ℕ) : ⌊halfEdge (2 ^ (k + 1))⌋₊ = 2 ^ k := by
  rw [floor_halfEdge, pow_succ]
  simp

theorem two_pow_succ_ne_one (k : ℕ) : 2 ^ (k + 1) ≠ 1 := by
  have : 1 < 2 ^ (k + 1) := Nat.one_lt_two_pow (by omega)
  omega

theorem octreeDevider_fanout_some {Tri : Type} (b : BaseMeshBuilder Tri) (fuel : ℕ)
    (field : ParametricScalarField) (o : Vec3_t ℝ) (n : ℕ) (sink : List Tri) (hn : n ≠ 1)
    (hp : ¬ leftSideCondition b field o n > rightSideCondition b field n)
    (r1 r2 r3 r4 r5 r6 r7 r8 : ℕ × List Tri × CallTree)
    (e1 : octreeDevider b fuel field ⟨o.x, o.y, o.z⟩ ⌊halfEdge n⌋₊ [] = some r1)
    (e2 : octreeDevider b fuel field ⟨o.x + halfEdge n, o.y, o.z⟩ ⌊halfEdge n⌋₊ [] = some r2)
    (e3 : octreeDevider b fuel field ⟨o.x, o.y + halfEdge n, o.z⟩ ⌊halfEdge n⌋₊ [] = some r3)
    (e4 : octreeDevider b fuel field ⟨o.x, o.y, o.z + halfEdge n⟩ ⌊halfEdge n⌋₊ [] = some r4)
    (e5 : octreeDevider b fuel field ⟨o.x + halfEdge n, o.y + halfEdge n, o.z⟩ ⌊halfEdge n⌋₊ []
      = some r5)
    (e6 : octreeDevider b fuel field ⟨o.x + halfEdge n, o.y, o.z + halfEdge n⟩ ⌊halfEdge n⌋₊ []
      = some r6)
    (e7 : octreeDevider b fuel field ⟨o.x, o.y + halfEdge n, o.z + halfEdge n⟩ ⌊halfEdge n⌋₊ []
      = some r7)
    (e8 : octreeDevider b fuel field ⟨o.x + halfEdge n, o.y + halfEdge n, o.z + halfEdge n⟩
      ⌊halfEdge n⌋₊ [] = some r8) :
    octreeDevider b (fuel + 1) field o n sink =
      some (r1.1 + r2.1 + r3.1 + r4.1 + r5.1 + r6.1 + r7.1 + r8.1,
        sink ++ (r1.2.1 ++ r2.2.1 ++ r3.2.1 ++ r4.2.1 ++ r5.2.1 ++ r6.2.1 ++ r7.2.1 ++ r8.2.1),
        CallTree.split o n (midCubeOffset b o n)
          r1.2.2 r2.2.2 r3.2.2 r4.2.2 r5.2.2 r6.2.2 r7.2.2 r8.2.2) := by
  rw [octreeDevider_fanout b fuel field o n sink hn hp, octreeDevider_frame, e1]
  simp only [Option.map_some', Option.some_bind]
  rw [octreeDevider_frame, e2]
  simp only [Option.map_some', Option.some_bind]
  rw [octreeDevider_frame, e3]
  simp only [Option.map_some', Option.some_bind]
  rw [octreeDevider_frame, e4]
  simp only [Option.map_some', Option.some_bind]
  rw [octreeDevider_frame, e5]
  simp only [Option.map_some', Option.some_bind]
  rw [octreeDevider_frame, e6]
  simp only [Option.map_some', Option.some_bind]
  rw [octreeDevider_frame, e7]
  simp only [Option.map_some', Option.some_bind]
  rw [octreeDevider_frame, e8]
  simp only [Option.map_some', Option.some_bind, List.append_assoc]

/-- Induction over a run of the divider on a region whose edge is a power of two: with
fuel `k + 1` a call on an edge `2 ^ k` returns, and its result (count, emitted triangles,
call tree, run from the empty sink) has every property that holds for leaf results and
pruned results and is passed from the eight children to the parent. -/
theorem octreeDevider_pow_two_induction {Tri : Type} (b : BaseMeshBuilder Tri) (field : ParametricScalarField)
    (P : Vec3_t ℝ → ℕ → ℕ × List Tri × CallTree → Prop)
    (hcell : ∀ o, P o 0 ((b.buildCube o field).1, (b.buildCube o field).2, CallTree.cell o))
    (hprune : ∀ o k, leftSideCondition b field o (2 ^ (k + 1)) >
        rightSideCondition b field (2 ^ (k + 1)) →
      P o (k + 1) (0, [], CallTree.pruned o (2 ^ (k + 1)) (midCubeOffset b o (2 ^ (k + 1)))))
    (hsplit : ∀ o k (r1 r2 r3 r4 r5 r6 r7 r8 : ℕ × List Tri × CallTree),
      ¬ leftSideCondition b field o (2 ^ (k + 1)) > rightSideCondition b field (2 ^ (k + 1)) →
      P ⟨o.x, o.y, o.z⟩ k r1 → P ⟨o.x + 2 ^ k, o.y, o.z⟩ k r2 →
      P ⟨o.x, o.y + 2 ^ k, o.z⟩ k r3 → P ⟨o.x, o.y, o.z + 2 ^ k⟩ k r4 →
      P ⟨o.x + 2 ^ k, o.y + 2 ^ k, o.z⟩ k r5 → P ⟨o.x + 2 ^ k, o.y, o.z + 2 ^ k⟩ k r6 →
      P ⟨o.x, o.y + 2 ^ k, o.z + 2 ^ k⟩ k r7 → P ⟨o.x + 2 ^ k, o.y + 2 ^ k, o.z + 2 ^ k⟩ k r8 →
      P o (k + 1) (r1.1 + r2.1 + r3.1 + r4.1 + r5.1 + r6.1 + r7.1 + r8.1,
        r1.2.1 ++ r2.2.1 ++ r3.2.1 ++ r4.2.1 ++ r5.2.1 ++ r6.2.1 ++ r7.2.1 ++ r8.2.1,
        CallTree.split o (2 ^ (k + 1)) (midCubeOffset b o (2 ^ (k + 1)))
          r1.2.2 r2.2.2 r3.2.2 r4.2.2 r5.2.2 r6.2.2 r7.2.2 r8.2.2)) :
    ∀ (k fuel : ℕ) (o : Vec3_t ℝ), k + 1 ≤ fuel →
      ∃ r, octreeDevider b fuel field o (2 ^ k) [] = some r ∧ P o k r := by
  intro k
  induction k with
  | zero =>
    intro fuel o hf
    obtain ⟨f, rfl⟩ : ∃ f, fuel = f + 1 := ⟨fuel - 1, by omega⟩
    refine ⟨_, ?_, hcell o⟩
    rw [pow_zero, octreeDevider_leaf]
    rfl
  | succ k ih =>
    intro fuel o hf
    obtain ⟨f, rfl⟩ : ∃ f, fuel = f + 1 := ⟨fuel - 1, by omega⟩
    have hf' : k + 1 ≤ f := by omega
    by_cases hp : leftSideCondition b field o (2 ^ (k + 1)) >
        rightSideCondition b field (2 ^ (k + 1))
    · exact ⟨_, octreeDevider_prune b f field o _ [] (two_pow_succ_ne_one k) hp, hprune o k hp⟩
    · obtain ⟨r1, e1, p1⟩ := ih f ⟨o.x, o.y, o.z⟩ hf'
      obtain ⟨r2, e2, p2⟩ := ih f ⟨o.x + 2 ^ k, o.y, o.z⟩ hf'
      obtain ⟨r3, e3, p3⟩ := ih f ⟨o.x, o.y + 2 ^ k, o.z⟩ hf'
      obtain ⟨r4, e4, p4⟩ := ih f ⟨o.x, o.y, o.z + 2 ^ k⟩ hf'
      obtain ⟨r5, e5, p5⟩ := ih f ⟨o.x + 2 ^ k, o.y + 2 ^ k, o.z⟩ hf'
      obtain ⟨r6, e6, p6⟩ := ih f ⟨o.x + 2 ^ k, o.y, o.z + 2 ^ k⟩ hf'
      obtain ⟨r7, e7, p7⟩ := ih f ⟨o.x, o.y + 2 ^ k, o.z + 2 ^ k⟩ hf'
      obtain ⟨r8, e8, p8⟩ := ih f ⟨o.x + 2 ^ k, o.y + 2 ^ k, o.z + 2 ^ k⟩ hf'
      refine ⟨_, ?_, hsplit o k r1 r2 r3 r4 r5 r6 r7 r8 hp p1 p2 p3 p4 p5 p6 p7 p8⟩
      have h := octreeDevider_fanout_some b f field o (2 ^ (k + 1)) [] (two_pow_succ_ne_one k) hp
        r1 r2 r3 r4 r5 r6 r7 r8
      rw [floor_halfEdge_pow, halfEdge_pow] at h
      simpa only [List.nil_append] using h e1 e2 e3 e4 e5 e6 e7 e8

/-- The sum of `f` over the unit cells of a region, as a triple sum over the cell indices. -/
theorem sum_map_range {M : Type} [AddCommMonoid M] (g : ℕ → M) (n : ℕ) :
    ((List.range n).map g).sum = ∑ i in Finset.range n, g i := by
  induction n with
  | zero => simp
  | succ n ih => rw [List.range_succ, List.map_append, List.sum_append, ih,
      Finset.sum_range_succ]; simp

theorem sum_map_flatMap {M α β : Type} [AddCommMonoid M] (f : β → M) (g : α → List β)
    (l : List α) : ((l.flatMap g).map f).sum = (l.map fun a => ((g a).map f).sum).sum := by
  induction l with
  | nil => simp
  | cons a l ih => simp [List.flatMap_cons, ih]

theorem sum_unitCells {M : Type} [AddCommMonoid M] (f : Vec3_t ℝ → M) (o : Vec3_t ℝ) (n : ℕ) :
    ((unitCells o n).map f).sum =
      ∑ i in Finset.range n, ∑ j in Finset.range n, ∑ l in Finset.range n,
        f ⟨o.x + (i : ℝ), o.y + (j : ℝ), o.z + (l : ℝ)⟩ := by
  unfold unitCells
  rw [sum_map_flatMap, sum_map_range]
  refine Finset.sum_congr rfl fun i _ => ?_
  rw [sum_map_flatMap, sum_map_range]
  refine Finset.sum_congr rfl fun j _ => ?_
  rw [List.map_map, sum_map_range]
  rfl

/-- The unit cells of a region of edge `m + m` are those of its eight octants. -/
theorem sum_unitCells_octants {M : Type} [AddCommMonoid M] (f : Vec3_t ℝ → M) (o : Vec3_t ℝ)
    (m : ℕ) :
    ((unitCells o (m + m)).map f).sum =
      ((unitCells ⟨o.x, o.y, o.z⟩ m).map f).sum
      + ((unitCells ⟨o.x + m, o.y, o.z⟩ m).map f).sum
      + ((unitCells ⟨o.x, o.y + m, o.z⟩ m).map f).sum
      + ((unitCells ⟨o.x, o.y, o.z + m⟩ m).map f).sum
      + ((unitCells ⟨o.x + m, o.y + m, o.z⟩ m).map f).sum
      + ((unitCells ⟨o.x + m, o.y, o.z + m⟩ m).map f).sum
      + ((unitCells ⟨o.x, o.y + m, o.z + m⟩ m).map f).sum
      + ((unitCells ⟨o.x + m, o.y + m, o.z + m⟩ m).map f).sum := by
  simp only [sum_unitCells, Finset.sum_range_add, Finset.sum_add_distrib, Nat.cast_add,
    ← add_assoc]
  abel

theorem sum_unitCells_eq_zero {M : Type} [AddCommMonoid M] (f : Vec3_t ℝ → M) (o : Vec3_t ℝ)
    (n : ℕ) (h : ∀ q, CellInRegion o n q → f q = 0) : ((unitCells o n).map f).sum = 0 := by
  rw [sum_unitCells]
  refine Finset.sum_eq_zero fun i hi => Finset.sum_eq_zero fun j hj =>
    Finset.sum_eq_zero fun l hl => h _ ?_
  have hc : ∀ a : ℕ, a ∈ Finset.range n → (0 : ℝ) ≤ (a : ℝ) ∧ (a : ℝ) + 1 ≤ (n : ℝ) := by
    intro a ha
    refine ⟨Nat.cast_nonneg a, ?_⟩
    have : a + 1 ≤ n := Finset.mem_range.1 ha
    exact_mod_cast this
  unfold CellInRegion
  simp only
  have := hc i hi
  have := hc j hj
  have := hc l hl
  refine ⟨⟨?_, ?_⟩, ⟨?_, ?_⟩, ⟨?_, ?_⟩⟩ <;> linarith

theorem unitCells_one (o : Vec3_t ℝ) : unitCells o 1 = [o] := by
  have h : List.range 1 = [0] := rfl
  simp [unitCells, h]

theorem bruteForce_foldl {Tri : Type} (b : BaseMeshBuilder Tri) (field : ParametricScalarField)
    (l : List (Vec3_t ℝ)) (c : ℕ) (sink : List Tri) :
    l.foldl (fun acc q => (acc.1 + (b.buildCube q field).1,
        (b.buildCube q field).2.foldl emitTriangle acc.2)) (c, sink) =
      (c + (l.map fun q => (b.buildCube q field).1).sum,
        sink ++ l.flatMap fun q => (b.buildCube q field).2) := by
  induction l generalizing c sink with
  | nil => simp
  | cons q l ih =>
    rw [List.foldl_cons, ih, foldl_emitTriangle]
    simp [List.flatMap_cons, add_assoc]

theorem bruteForce_eq {Tri : Type} (b : BaseMeshBuilder Tri) (field : ParametricScalarField)
    (o : Vec3_t ℝ) (n : ℕ) (sink : List Tri) :
    bruteForce b field o n sink =
      (((unitCells o n).map fun q => (b.buildCube q field).1).sum,
        sink ++ (unitCells o n).flatMap fun q => (b.buildCube q field).2) := by
  unfold bruteForce
  rw [bruteForce_foldl, zero_add]

theorem coe_flatMap {Tri : Type} {α : Type} (g : α → List Tri) (l : List α) :
    ((l.flatMap g : List Tri) : Multiset Tri) = (l.map fun a => (g a : Multiset Tri)).sum := by
  induction l with
  | nil => simp
  | cons a l ih => simp [List.flatMap_cons, ← Multiset.coe_add, ih]

theorem buildCube_silent_of_prune {Tri : Type} (b : BaseMeshBuilder Tri) (field : ParametricScalarField)
    (o : Vec3_t ℝ) (n : ℕ) (hres : 0 ≤ b.mGridResolution)
    (hprune : leftSideCondition b field o n > rightSideCondition b field n)
    (hleaf : LeafSilentAboveIso b field) (q : Vec3_t ℝ) (hq : CellInRegion o n q) :
    b.buildCube q field = (0, []) :=
  hleaf q fun dx dy dz =>
    field_above_of_prune b field o n hres hprune _ (cubeCorner_inCube b o n hres q hq dx dy dz)

/-- On a region whose edge is a power of two the divider returns the count of the
brute-force sweep and emits the same triangles up to order. -/
theorem octreeDevider_eq_bruteForce {Tri : Type} (b : BaseMeshBuilder Tri) (field : ParametricScalarField)
    (hres : 0 < b.mGridResolution) (hleaf : LeafSilentAboveIso b field) (k fuel : ℕ)
    (o : Vec3_t ℝ) (hfuel : k + 1 ≤ fuel) :
    ∃ r, octreeDevider b fuel field o (2 ^ k) [] = some r ∧
      r.1 = ((unitCells o (2 ^ k)).map fun q => (b.buildCube q field).1).sum ∧
      (r.2.1 : Multiset Tri) =
        ((unitCells o (2 ^ k)).map fun q => ((b.buildCube q field).2 : Multiset Tri)).sum := by
  refine octreeDevider_pow_two_induction b field
    (fun o k r => r.1 = ((unitCells o (2 ^ k)).map fun q => (b.buildCube q field).1).sum ∧
      (r.2.1 : Multiset Tri) =
        ((unitCells o (2 ^ k)).map fun q => ((b.buildCube q field).2 : Multiset Tri)).sum)
    ?_ ?_ ?_ k fuel o hfuel
  · intro o
    simp [unitCells_one]
  · intro o k hp
    have hz := buildCube_silent_of_prune b field o (2 ^ (k + 1)) hres.le hp hleaf
    constructor
    · exact (sum_unitCells_eq_zero _ o _ fun q hq => by rw [hz q hq]).symm
    · exact (sum_unitCells_eq_zero _ o _ fun q hq => by rw [hz q hq]; rfl).symm
  · intro o k r1 r2 r3 r4 r5 r6 r7 r8 _ p1 p2 p3 p4 p5 p6 p7 p8
    have e : (2 : ℕ) ^ (k + 1) = 2 ^ k + 2 ^ k := by rw [pow_succ]; ring
    have c : (((2 : ℕ) ^ k : ℕ) : ℝ) = (2 : ℝ) ^ k := by push_cast; rfl
    constructor
    · rw [e, sum_unitCells_octants, c, ← p1.1, ← p2.1, ← p3.1, ← p4.1, ← p5.1, ← p6.1, ← p7.1,
        ← p8.1]
    · rw [e, sum_unitCells_octants, c, ← p1.2, ← p2.2, ← p3.2, ← p4.2, ← p5.2, ← p6.2, ← p7.2,
        ← p8.2]
      simp only [← Multiset.coe_add]

/-- A returning call that is neither a base case nor pruned has run its eight recursive
calls, each from the sink its predecessor left, and is assembled from their results. -/
theorem octreeDevider_fanout_inv {Tri : Type} (b : BaseMeshBuilder Tri) (fuel : ℕ)
    (field : ParametricScalarField) (o : Vec3_t ℝ) (n : ℕ) (sink : List Tri) (hn : n ≠ 1)
    (hp : ¬ leftSideCondition b field o n > rightSideCondition b field n)
    (r : ℕ × List Tri × CallTree) (h : octreeDevider b (fuel + 1) field o n sink = some r) :
    ∃ r1 r2 r3 r4 r5 r6 r7 r8 : ℕ × List Tri × CallTree,
      octreeDevider b fuel field ⟨o.x, o.y, o.z⟩ ⌊halfEdge n⌋₊ sink = some r1 ∧
      octreeDevider b fuel field ⟨o.x + halfEdge n, o.y, o.z⟩ ⌊halfEdge n⌋₊ r1.2.1 = some r2 ∧
      octreeDevider b fuel field ⟨o.x, o.y + halfEdge n, o.z⟩ ⌊halfEdge n⌋₊ r2.2.1 = some r3 ∧
      octreeDevider b fuel field ⟨o.x, o.y, o.z + halfEdge n⟩ ⌊halfEdge n⌋₊ r3.2.1 = some r4 ∧
      octreeDevider b fuel field ⟨o.x + halfEdge n, o.y + halfEdge n, o.z⟩ ⌊halfEdge n⌋₊ r4.2.1
        = some r5 ∧
      octreeDevider b fuel field ⟨o.x + halfEdge n, o.y, o.z + halfEdge n⟩ ⌊halfEdge n⌋₊ r5.2.1
        = some r6 ∧
      octreeDevider b fuel field ⟨o.x, o.y + halfEdge n, o.z + halfEdge n⟩ ⌊halfEdge n⌋₊ r6.2.1
        = some r7 ∧
      octreeDevider b fuel field ⟨o.x + halfEdge n, o.y + halfEdge n, o.z + halfEdge n⟩
        ⌊halfEdge n⌋₊ r7.2.1 = some r8 ∧
      r = (r1.1 + r2.1 + r3.1 + r4.1 + r5.1 + r6.1 + r7.1 + r8.1, r8.2.1,
        CallTree.split o n (midCubeOffset b o n)
          r1.2.2 r2.2.2 r3.2.2 r4.2.2 r5.2.2 r6.2.2 r7.2.2 r8.2.2) := by
  rw [octreeDevider_fanout b fuel field o n sink hn hp] at h
  rcases e1 : octreeDevider b fuel field ⟨o.x, o.y, o.z⟩ ⌊halfEdge n⌋₊ sink with _ | r1
  · rw [e1] at h; exact absurd h (by simp)
  rw [e1, Option.some_bind] at h
  rcases e2 : octreeDevider b fuel field ⟨o.x + halfEdge n, o.y, o.z⟩ ⌊halfEdge n⌋₊ r1.2.1
    with _ | r2
  · rw [e2] at h; exact absurd h (by simp)
  rw [e2, Option.some_bind] at h
  rcases e3 : octreeDevider b fuel field ⟨o.x, o.y + halfEdge n, o.z⟩ ⌊halfEdge n⌋₊ r2.2.1
    with _ | r3
  · rw [e3] at h; exact absurd h (by simp)
  rw [e3, Option.some_bind] at h
  rcases e4 : octreeDevider b fuel field ⟨o.x, o.y, o.z + halfEdge n⟩ ⌊halfEdge n⌋₊ r3.2.1
    with _ | r4
  · rw [e4] at h; exact absurd h (by simp)
  rw [e4, Option.some_bind] at h
  rcases e5 : octreeDevider b fuel field ⟨o.x + halfEdge n, o.y + halfEdge n, o.z⟩
    ⌊halfEdge n⌋₊ r4.2.1 with _ | r5
  · rw [e5] at h; exact absurd h (by simp)
  rw [e5, Option.some_bind] at h
  rcases e6 : octreeDevider b fuel field ⟨o.x + halfEdge n, o.y, o.z + halfEdge n⟩
    ⌊halfEdge n⌋₊ r5.2.1 with _ | r6
  · rw [e6] at h; exact absurd h (by simp)
  rw [e6, Option.some_bind] at h
  rcases e7 : octreeDevider b fuel field ⟨o.x, o.y + halfEdge n, o.z + halfEdge n⟩
    ⌊halfEdge n⌋₊ r6.2.1 with _ | r7
  · rw [e7] at h; exact absurd h (by simp)
  rw [e7, Option.some_bind] at h
  rcases e8 : octreeDevider b fuel field ⟨o.x + halfEdge n, o.y + halfEdge n, o.z + halfEdge n⟩
    ⌊halfEdge n⌋₊ r7.2.1 with _ | r8
  · rw [e8] at h; exact absurd h (by simp)
  rw [e8, Option.some_bind] at h
  exact ⟨r1, r2, r3, r4, r5, r6, r7, r8, rfl, e2, e3, e4, e5, e6, e7, e8,
    (Option.some.inj h).symm⟩

/-- The root of the call tree of a returning call is the region the call was given. -/
theorem octreeDevider_region {Tri : Type} (b : BaseMeshBuilder Tri) (fuel : ℕ)
    (field : ParametricScalarField) (o : Vec3_t ℝ) (n : ℕ) (sink : List Tri)
    (r : ℕ × List Tri × CallTree) (h : octreeDevider b fuel field o n sink = some r) :
    r.2.2.region = (o, n) := by
  cases fuel with
  | zero => exact absurd h (by simp [octreeDevider_zero])
  | succ fuel =>
    by_cases hn : n = 1
    · subst hn
      rw [octreeDevider_leaf] at h
      rw [← Option.some.inj h]
      rfl
    by_cases hp : leftSideCondition b field o n > rightSideCondition b field n
    · rw [octreeDevider_prune b fuel field o n sink hn hp] at h
      rw [← Option.some.inj h]
      rfl
    · obtain ⟨r1, r2, r3, r4, r5, r6, r7, r8, -, -, -, -, -, -, -, -, rfl⟩ :=
        octreeDevider_fanout_inv b fuel field o n sink hn hp r h
      rfl

theorem octantOrigin_forms (o : Vec3_t ℝ) (n : ℕ) :
    octantOrigin o n 0 0 0 = ⟨o.x, o.y, o.z⟩ ∧
    octantOrigin o n 1 0 0 = ⟨o.x + halfEdge n, o.y, o.z⟩ ∧
    octantOrigin o n 0 1 0 = ⟨o.x, o.y + halfEdge n, o.z⟩ ∧
    octantOrigin o n 0 0 1 = ⟨o.x, o.y, o.z + halfEdge n⟩ ∧
    octantOrigin o n 1 1 0 = ⟨o.x + halfEdge n, o.y + halfEdge n, o.z⟩ ∧
    octantOrigin o n 1 0 1 = ⟨o.x + halfEdge n, o.y, o.z + halfEdge n⟩ ∧
    octantOrigin o n 0 1 1 = ⟨o.x, o.y + halfEdge n, o.z + halfEdge n⟩ ∧
    octantOrigin o n 1 1 1 = ⟨o.x + halfEdge n, o.y + halfEdge n, o.z + halfEdge n⟩ := by
  simp [octantOrigin, halfEdge]

theorem sampleBuilder_silent (n : ℕ) (field : ParametricScalarField) :
    LeafSilentAboveIso (sampleBuilder n) field := by
  intro q hq
  have h := hq 0 0 0
  simp only [cubeCorner, sampleBuilder, Fin.val_zero, Nat.cast_zero, add_zero] at h
  simp only [sampleBuilder, originCornerCube]
  rw [if_pos h]

theorem sampleBuilder_count (n : ℕ) (field : ParametricScalarField) (q : Vec3_t ℝ) :
    ((sampleBuilder n).buildCube q field).1 = ((sampleBuilder n).buildCube q field).2.length := by
  simp only [sampleBuilder, originCornerCube]
  split_ifs <;> rfl

theorem farField_centre :
    evaluateFieldAt ⟨((2 : ℕ) : ℝ) / 2 * 1, ((2 : ℕ) : ℝ) / 2 * 1, ((2 : ℕ) : ℝ) / 2 * 1⟩ farField
      > farField.getIsoLevel + (Real.sqrt 3 / 2) * (((2 : ℕ) : ℝ) * 1) := by
  have e : evaluateFieldAt ⟨((2 : ℕ) : ℝ) / 2 * 1, ((2 : ℕ) : ℝ) / 2 * 1, ((2 : ℕ) : ℝ) / 2 * 1⟩
      farField = Real.sqrt 9803 := by
    unfold evaluateFieldAt farField
    simp only [List.foldl_cons, List.foldl_nil]
    congr 1
    norm_num [distanceSquared, floatMax]
  rw [e]
  have h : Real.sqrt 3 < Real.sqrt 9803 := Real.sqrt_lt_sqrt (by norm_num) (by norm_num)
  simp only [farField]
  have h2 : Real.sqrt 3 / 2 * (((2 : ℕ) : ℝ) * 1) = Real.sqrt 3 := by push_cast; ring
  rw [h2, zero_add]
  exact h

theorem farField_pruned :
    leftSideCondition (sampleBuilder 2) farField ⟨0, 0, 0⟩ 2
      > rightSideCondition (sampleBuilder 2) farField 2 := by
  have h := farField_centre
  have e : midCubeOffset (sampleBuilder 2) ⟨0, 0, 0⟩ 2
      = ⟨((2 : ℕ) : ℝ) / 2 * 1, ((2 : ℕ) : ℝ) / 2 * 1, ((2 : ℕ) : ℝ) / 2 * 1⟩ := by
    simp [midCubeOffset, halfEdge, sampleBuilder]
  unfold leftSideCondition rightSideCondition realEdgeSize
  rw [e]
  exact h

theorem nearField_not_pruned :
    ¬ leftSideCondition (sampleBuilder 2) nearField ⟨0, 0, 0⟩ 2
      > rightSideCondition (sampleBuilder 2) nearField 2 := by
  have e : leftSideCondition (sampleBuilder 2) nearField ⟨0, 0, 0⟩ 2 = 0 := by
    unfold leftSideCondition evaluateFieldAt nearField
    simp only [List.foldl_cons, List.foldl_nil]
    have : min floatMax (distanceSquared (midCubeOffset (sampleBuilder 2) ⟨0, 0, 0⟩ 2) ⟨1, 1, 1⟩)
        = 0 := by
      norm_num [distanceSquared, floatMax, midCubeOffset, halfEdge, sampleBuilder]
    rw [this, Real.sqrt_zero]
  rw [e]
  unfold rightSideCondition realEdgeSize
  have : (0 : ℝ) ≤ Real.sqrt 3 := Real.sqrt_nonneg 3
  simp only [nearField, sampleBuilder]
  norm_num
  linarith

theorem constantBuilder_run (sink : List Unit) :
    marchCubes (constantBuilder 1) 1 nearField sink
      = some (1, sink ++ [()], CallTree.cell Vec3_t.zero) :=
  octreeDevider_leaf (constantBuilder 1) 0 nearField Vec3_t.zero sink

theorem distanceSquared_comm (p q : Vec3_t ℝ) : distanceSquared p q = distanceSquared q p := by
  unfold distanceSquared
  ring

theorem sqrt_three_mul_sq (h : ℝ) (hh : 0 ≤ h) :
    Real.sqrt (h * h + h * h + h * h) = Real.sqrt 3 / 2 * (2 * h) := by
  have e : h * h + h * h + h * h = 3 * h ^ 2 := by ring
  rw [e, Real.sqrt_mul (by norm_num), Real.sqrt_sq hh]
  ring

theorem corner_sq (c h : ℝ) (a : ℕ) (ha : a ≤ 1) (o r n : ℝ) (hc : c = (o + n / 2) * r)
    (hh : h = n * r / 2) :
    (c - (o + (a : ℝ) * n) * r) * (c - (o + (a : ℝ) * n) * r) = h * h := by
  have : a = 0 ∨ a = 1 := by omega
  rcases this with rfl | rfl <;> subst hc <;> subst hh <;> push_cast <;> ring

theorem cast_half_of_even (n : ℕ) (heven : n % 2 = 0) : ((n / 2 : ℕ) : ℝ) = (n : ℝ) / 2 := by
  obtain ⟨m, rfl⟩ : ∃ m, n = 2 * m := ⟨n / 2, by omega⟩
  rw [Nat.mul_div_cancel_left m (by norm_num)]
  push_cast
  ring

/-- The centre of an octant lies in the cube of half the edge around the centre of its
parent region. -/
theorem octant_mid_inCube {Tri : Type} (b : BaseMeshBuilder Tri) (o : Vec3_t ℝ) (n : ℕ)
    (heven : n % 2 = 0) (hres : 0 ≤ b.mGridResolution) (dx dy dz : ℕ) (hx : dx ≤ 1)
    (hy : dy ≤ 1) (hz : dz ≤ 1) :
    InCube b ⟨o.x + (n : ℝ) / 4, o.y + (n : ℝ) / 4, o.z + (n : ℝ) / 4⟩ (n / 2)
      (midCubeOffset b (octantOrigin o n dx dy dz) (n / 2)) := by
  have hc := cast_half_of_even n heven
  have hn : (0 : ℝ) ≤ (n : ℝ) := Nat.cast_nonneg n
  have hd : ∀ d : ℕ, d ≤ 1 → (0 : ℝ) ≤ (d : ℝ) * n / 2 ∧ (d : ℝ) * n / 2 ≤ (n : ℝ) / 2 := by
    intro d hd
    have : d = 0 ∨ d = 1 := by omega
    rcases this with rfl | rfl <;> simp <;> linarith
  unfold InCube midCubeOffset octantOrigin halfEdge
  simp only [hc]
  refine ⟨⟨?_, ?_⟩, ⟨?_, ?_⟩, ⟨?_, ?_⟩⟩ <;> apply mul_le_mul_of_nonneg_right _ hres
  · linarith [(hd dx hx).1]
  · linarith [(hd dx hx).2]
  · linarith [(hd dy hy).1]
  · linarith [(hd dy hy).2]
  · linarith [(hd dz hz).1]
  · linarith [(hd dz hz).2]

theorem quarter_shift_mid {Tri : Type} (b : BaseMeshBuilder Tri) (o : Vec3_t ℝ) (n : ℕ)
    (heven : n % 2 = 0) :
    midCubeOffset b ⟨o.x + (n : ℝ) / 4, o.y + (n : ℝ) / 4, o.z + (n : ℝ) / 4⟩ (n / 2)
      = midCubeOffset b o n := by
  have hc := cast_half_of_even n heven
  unfold midCubeOffset halfEdge
  simp only [hc]
  congr 1 <;> ring

theorem cells_subset_calls (t : CallTree) (q : Vec3_t ℝ) (h : q ∈ t.cells) :
    (q, mCutOff) ∈ t.calls := by
  induction t with
  | cell o =>
    simp only [CallTree.cells, List.mem_singleton] at h
    simp [CallTree.calls, h]
  | pruned o n mid => simp [CallTree.cells] at h
  | split o n mid t1 t2 t3 t4 t5 t6 t7 t8 ih1 ih2 ih3 ih4 ih5 ih6 ih7 ih8 =>
    simp only [CallTree.cells, List.mem_append] at h
    simp only [CallTree.calls, List.mem_cons, List.mem_append]
    rcases h with ((((((h | h) | h) | h) | h) | h) | h) | h
    · simp only [ih1 h, true_or, or_true]
    · simp only [ih2 h, true_or, or_true]
    · simp only [ih3 h, true_or, or_true]
    · simp only [ih4 h, true_or, or_true]
    · simp only [ih5 h, true_or, or_true]
    · simp only [ih6 h, true_or, or_true]
    · simp only [ih7 h, true_or, or_true]
    · simp only [ih8 h, true_or, or_true]

theorem subRegion_root (o : Vec3_t ℝ) (k : ℕ) : SubRegion o k o (2 ^ k) :=
  ⟨k, le_refl k, rfl, 0, 0, 0, by simp, by simp, by simp, by simp⟩

theorem subRegion_shift (o o' : Vec3_t ℝ) (k ex ey ez : ℕ) (hx : ex ≤ 1) (hy : ey ≤ 1)
    (hz : ez ≤ 1)
    (ho : o' = ⟨o.x + (ex : ℝ) * 2 ^ k, o.y + (ey : ℝ) * 2 ^ k, o.z + (ez : ℝ) * 2 ^ k⟩)
    (q : Vec3_t ℝ) (m : ℕ) (h : SubRegion o' k q m) : SubRegion o (k + 1) q m := by
  obtain ⟨j, hj, hm, a, b, c, hq, ha, hb, hc⟩ := h
  have hk : 2 ^ (k - j) * m = 2 ^ k := by rw [hm, ← pow_add]; congr 1; omega
  have h2 : 2 ^ (k + 1) = 2 ^ k + 2 ^ k := by rw [pow_succ]; ring
  have hle : ∀ e : ℕ, e ≤ 1 → e * 2 ^ k ≤ 2 ^ k := fun e he =>
    le_trans (Nat.mul_le_mul_right _ he) (by simp)
  have hmul : ∀ e a : ℕ, (e * 2 ^ (k - j) + a) * m = e * 2 ^ k + a * m := by
    intro e a
    rw [add_mul, mul_assoc, hk]
  have hcast : ∀ e a : ℕ, (((e * 2 ^ (k - j) + a) * m : ℕ) : ℝ)
      = (e : ℝ) * 2 ^ k + ((a * m : ℕ) : ℝ) := by
    intro e a
    rw [hmul]
    push_cast
    ring
  refine ⟨j, by omega, hm, ex * 2 ^ (k - j) + a, ey * 2 ^ (k - j) + b, ez * 2 ^ (k - j) + c,
    ?_, ?_, ?_, ?_⟩
  · rw [hq, ho, hcast, hcast, hcast]
    simp only [add_assoc]
  · rw [hmul, h2]; have := hle ex hx; omega
  · rw [hmul, h2]; have := hle ey hy; omega
  · rw [hmul, h2]; have := hle ez hz; omega

/-- Every call made by a returning run on a region of edge `2 ^ k` is on an aligned
sub-region of that region. -/
theorem octreeDevider_calls_subRegion {Tri : Type} (b : BaseMeshBuilder Tri)
    (field : ParametricScalarField) (k fuel : ℕ) (o : Vec3_t ℝ) (hfuel : k + 1 ≤ fuel) :
    ∃ r, octreeDevider b fuel field o (2 ^ k) [] = some r ∧
      ∀ c ∈ r.2.2.calls, SubRegion o k c.1 c.2 := by
  refine octreeDevider_pow_two_induction b field
    (fun o k r => ∀ c ∈ r.2.2.calls, SubRegion o k c.1 c.2) ?_ ?_ ?_ k fuel o hfuel
  · intro o c hc
    simp only [CallTree.calls, List.mem_singleton] at hc
    subst hc
    exact subRegion_root o 0
  · intro o k _ c hc
    simp only [CallTree.calls, List.mem_singleton] at hc
    subst hc
    exact subRegion_root o (k + 1)
  · intro o k r1 r2 r3 r4 r5 r6 r7 r8 _ p1 p2 p3 p4 p5 p6 p7 p8 c hc
    simp only [CallTree.calls, List.mem_cons, List.mem_append] at hc
    rcases hc with hc | hc
    · subst hc
      exact subRegion_root o (k + 1)
    rcases hc with ((((((hc | hc) | hc) | hc) | hc) | hc) | hc) | hc
    · exact subRegion_shift o _ k 0 0 0 (by omega) (by omega) (by omega) (by simp) _ _ (p1 c hc)
    · exact subRegion_shift o _ k 1 0 0 (by omega) (by omega) (by omega) (by simp) _ _ (p2 c hc)
    · exact subRegion_shift o _ k 0 1 0 (by omega) (by omega) (by omega) (by simp) _ _ (p3 c hc)
    · exact subRegion_shift o _ k 0 0 1 (by omega) (by omega) (by omega) (by simp) _ _ (p4 c hc)
    · exact subRegion_shift o _ k 1 1 0 (by omega) (by omega) (by omega) (by simp) _ _ (p5 c hc)
    · exact subRegion_shift o _ k 1 0 1 (by omega) (by omega) (by omega) (by simp) _ _ (p6 c hc)
    · exact subRegion_shift o _ k 0 1 1 (by omega) (by omega) (by omega) (by simp) _ _ (p7 c hc)
    · exact subRegion_shift o _ k 1 1 1 (by omega) (by omega) (by omega) (by simp) _ _ (p8 c hc)

theorem regionInvariant_of_subRegion (k : ℕ) (q : Vec3_t ℝ) (m : ℕ)
    (h : SubRegion Vec3_t.zero k q m) : RegionInvariant (2 ^ k) q m := by
  obtain ⟨j, _, hm, a, b, c, hq, ha, hb, hc⟩ := h
  refine ⟨⟨j, hm⟩, ?_, by omega, a, b, c, ?_, ha, hb, hc⟩
  · rw [hm]
    exact Nat.one_le_two_pow
  · rw [hq]
    simp [Vec3_t.zero]

theorem mem_unitCells (o : Vec3_t ℝ) (n : ℕ) (q : Vec3_t ℝ) :
    q ∈ unitCells o n ↔ ∃ i j l : ℕ, i < n ∧ j < n ∧ l < n ∧
      q = ⟨o.x + (i : ℝ), o.y + (j : ℝ), o.z + (l : ℝ)⟩ := by
  unfold unitCells
  simp only [List.mem_flatMap, List.mem_map, List.mem_range]
  constructor
  · rintro ⟨i, hi, j, hj, l, hl, rfl⟩
    exact ⟨i, j, l, hi, hj, hl, rfl⟩
  · rintro ⟨i, j, l, hi, hj, hl, rfl⟩
    exact ⟨i, hi, j, hj, l, hl, rfl⟩

theorem unitCells_length (o : Vec3_t ℝ) (n : ℕ) : (unitCells o n).length = n ^ 3 := by
  unfold unitCells
  simp only [List.length_flatMap, Function.comp_def, List.length_map, List.length_range,
    List.map_const', List.sum_replicate, smul_eq_mul]
  ring

theorem unitCells_nodup (o : Vec3_t ℝ) (n : ℕ) : (unitCells o n).Nodup := by
  unfold unitCells
  rw [List.nodup_flatMap]
  refine ⟨fun i _ => ?_, (List.nodup_range n).imp fun {i i'} hne => ?_⟩
  · rw [List.nodup_flatMap]
    refine ⟨fun j _ => ?_, (List.nodup_range n).imp fun {j j'} hne => ?_⟩
    · refine (List.nodup_range n).map fun l l' h => ?_
      have := congrArg Vec3_t.z h
      simpa using this
    · intro q h1 h2
      simp only [List.mem_map] at h1 h2
      obtain ⟨l, _, rfl⟩ := h1
      obtain ⟨l', _, h⟩ := h2
      have := congrArg Vec3_t.y h
      exact hne (by simpa using this.symm)
  · intro q h1 h2
    simp only [List.mem_flatMap, List.mem_map] at h1 h2
    obtain ⟨j, _, l, _, rfl⟩ := h1
    obtain ⟨j', _, l', _, h⟩ := h2
    have := congrArg Vec3_t.x h
    exact hne (by simpa using this.symm)

theorem coe_eq_sum_singleton {α : Type} (l : List α) :
    (l : Multiset α) = (l.map fun a => ({a} : Multiset α)).sum := by
  induction l with
  | nil => simp
  | cons a l ih =>
    rw [List.map_cons, List.sum_cons, ← ih]
    rfl

theorem append8_eq_nil {α : Type} (l1 l2 l3 l4 l5 l6 l7 l8 : List α)
    (h : l1 ++ l2 ++ l3 ++ l4 ++ l5 ++ l6 ++ l7 ++ l8 = []) :
    l1 = [] ∧ l2 = [] ∧ l3 = [] ∧ l4 = [] ∧ l5 = [] ∧ l6 = [] ∧ l7 = [] ∧ l8 = [] := by
  simp only [List.append_eq_nil] at h
  obtain ⟨⟨⟨⟨⟨⟨⟨h1, h2⟩, h3⟩, h4⟩, h5⟩, h6⟩, h7⟩, h8⟩ := h
  exact ⟨h1, h2, h3, h4, h5, h6, h7, h8⟩

/-- A returning call that is not a base case and has no pruned node in its call tree was
not pruned itself. -/
theorem not_pruned_of_prunedRegions_nil {Tri : Type} (b : BaseMeshBuilder Tri) (fuel : ℕ)
    (field : ParametricScalarField) (o : Vec3_t ℝ) (n : ℕ) (sink : List Tri) (hn : n ≠ 1)
    (r : ℕ × List Tri × CallTree) (h : octreeDevider b (fuel + 1) field o n sink = some r)
    (hnp : r.2.2.prunedRegions = []) :
    ¬ leftSideCondition b field o n > rightSideCondition b field n := by
  intro hp
  rw [octreeDevider_prune b fuel field o n sink hn hp] at h
  rw [← Option.some.inj h] at hnp
  simp [CallTree.prunedRegions] at hnp

/-- Without pruning, a run on a region of edge `n` invokes the leaf evaluator
`8 ^ log2 n` times. -/
theorem cells_length_of_no_prune {Tri : Type} (b : BaseMeshBuilder Tri)
    (field : ParametricScalarField) (fuel : ℕ) :
    ∀ (o : Vec3_t ℝ) (n : ℕ) (sink : List Tri) (r : ℕ × List Tri × CallTree), 1 ≤ n →
      octreeDevider b fuel field o n sink = some r → r.2.2.prunedRegions = [] →
      r.2.2.cells.length = 8 ^ Nat.log 2 n := by
  induction fuel with
  | zero =>
    intro o n sink r _ h
    exact absurd h (by simp [octreeDevider_zero])
  | succ fuel ih =>
    intro o n sink r hn h hnp
    by_cases h1 : n = 1
    · subst h1
      rw [octreeDevider_leaf] at h
      rw [← Option.some.inj h]
      simp [CallTree.cells]
    have hp := not_pruned_of_prunedRegions_nil b fuel field o n sink h1 r h hnp
    obtain ⟨r1, r2, r3, r4, r5, r6, r7, r8, e1, e2, e3, e4, e5, e6, e7, e8, rfl⟩ :=
      octreeDevider_fanout_inv b fuel field o n sink h1 hp r h
    obtain ⟨n1, n2, n3, n4, n5, n6, n7, n8⟩ := append8_eq_nil _ _ _ _ _ _ _ _ hnp
    rw [floor_halfEdge] at e1 e2 e3 e4 e5 e6 e7 e8
    have hh : 1 ≤ n / 2 := by omega
    have hlog : Nat.log 2 n = Nat.log 2 (n / 2) + 1 :=
      Nat.log_of_one_lt_of_le (by norm_num) (by omega)
    simp only [CallTree.cells, List.length_append, ih _ _ _ _ hh e1 n1, ih _ _ _ _ hh e2 n2,
      ih _ _ _ _ hh e3 n3, ih _ _ _ _ hh e4 n4, ih _ _ _ _ hh e5 n5, ih _ _ _ _ hh e6 n6,
      ih _ _ _ _ hh e7 n7, ih _ _ _ _ hh e8 n8]
    rw [hlog, pow_succ]
    ring

/-- Without pruning, a run on a region whose edge is a power of two invokes the leaf
evaluator on the unit cells of the region, once each. -/
theorem cells_of_no_prune_pow_two {Tri : Type} (b : BaseMeshBuilder Tri)
    (field : ParametricScalarField) (k : ℕ) :
    ∀ (fuel : ℕ) (o : Vec3_t ℝ) (sink : List Tri) (r : ℕ × List Tri × CallTree),
      octreeDevider b fuel field o (2 ^ k) sink = some r → r.2.2.prunedRegions = [] →
      (r.2.2.cells : Multiset (Vec3_t ℝ)) = (unitCells o (2 ^ k) : Multiset (Vec3_t ℝ)) := by
  induction k with
  | zero =>
    intro fuel o sink r h _
    cases fuel with
    | zero => exact absurd h (by simp [octreeDevider_zero])
    | succ fuel =>
      rw [pow_zero, octreeDevider_leaf] at h
      rw [← Option.some.inj h, pow_zero, unitCells_one]
      rfl
  | succ k ih =>
    intro fuel o sink r h hnp
    cases fuel with
    | zero => exact absurd h (by simp [octreeDevider_zero])
    | succ fuel =>
      have h1 := two_pow_succ_ne_one k
      have hp := not_pruned_of_prunedRegions_nil b fuel field o _ sink h1 r h hnp
      obtain ⟨r1, r2, r3, r4, r5, r6, r7, r8, e1, e2, e3, e4, e5, e6, e7, e8, rfl⟩ :=
        octreeDevider_fanout_inv b fuel field o _ sink h1 hp r h
      obtain ⟨n1, n2, n3, n4, n5, n6, n7, n8⟩ := append8_eq_nil _ _ _ _ _ _ _ _ hnp
      rw [floor_halfEdge_pow] at e1 e2 e3 e4 e5 e6 e7 e8
      rw [halfEdge_pow] at e2 e3 e4 e5 e6 e7 e8
      have e : (2 : ℕ) ^ (k + 1) = 2 ^ k + 2 ^ k := by rw [pow_succ]; ring
      have c : (((2 : ℕ) ^ k : ℕ) : ℝ) = (2 : ℝ) ^ k := by push_cast; rfl
      rw [coe_eq_sum_singleton (unitCells o (2 ^ (k + 1))), e, sum_unitCells_octants, c]
      simp only [← coe_eq_sum_singleton, ← ih _ _ _ _ e1 n1, ← ih _ _ _ _ e2 n2,
        ← ih _ _ _ _ e3 n3, ← ih _ _ _ _ e4 n4, ← ih _ _ _ _ e5 n5, ← ih _ _ _ _ e6 n6,
        ← ih _ _ _ _ e7 n7, ← ih _ _ _ _ e8 n8, CallTree.cells, ← Multiset.coe_add]

/-- A returning call on a region of edge 1 is a base case. -/
theorem leaf_tree {Tri : Type} (b : BaseMeshBuilder Tri) (fuel : ℕ)
    (field : ParametricScalarField) (o : Vec3_t ℝ) (sink : List Tri)
    (r : ℕ × List Tri × CallTree) (h : octreeDevider b fuel field o 1 sink = some r) :
    r.2.2 = CallTree.cell o := by
  cases fuel with
  | zero => exact absurd h (by simp [octreeDevider_zero])
  | succ fuel =>
    rw [octreeDevider_leaf] at h
    rw [← Option.some.inj h]

/-- The regions of the eight recursive calls of a returning call that fanned out: the
origins are offset by the unrounded half edge, the edge is the truncated half edge. -/
theorem children_regions {Tri : Type} (b : BaseMeshBuilder Tri) (fuel : ℕ)
    (field : ParametricScalarField) (o : Vec3_t ℝ) (n : ℕ) (sink : List Tri) (hn : n ≠ 1)
    (hp : ¬ leftSideCondition b field o n > rightSideCondition b field n)
    (r : ℕ × List Tri × CallTree) (h : octreeDevider b (fuel + 1) field o n sink = some r) :
    r.2.2.children.map CallTree.region =
      [(⟨o.x, o.y, o.z⟩, n / 2), (⟨o.x + (n : ℝ) / 2, o.y, o.z⟩, n / 2),
       (⟨o.x, o.y + (n : ℝ) / 2, o.z⟩, n / 2), (⟨o.x, o.y, o.z + (n : ℝ) / 2⟩, n / 2),
       (⟨o.x + (n : ℝ) / 2, o.y + (n : ℝ) / 2, o.z⟩, n / 2),
       (⟨o.x + (n : ℝ) / 2, o.y, o.z + (n : ℝ) / 2⟩, n / 2),
       (⟨o.x, o.y + (n : ℝ) / 2, o.z + (n : ℝ) / 2⟩, n / 2),
       (⟨o.x + (n : ℝ) / 2, o.y + (n : ℝ) / 2, o.z + (n : ℝ) / 2⟩, n / 2)] := by
  obtain ⟨r1, r2, r3, r4, r5, r6, r7, r8, e1, e2, e3, e4, e5, e6, e7, e8, rfl⟩ :=
    octreeDevider_fanout_inv b fuel field o n sink hn hp r h
  rw [floor_halfEdge] at e1 e2 e3 e4 e5 e6 e7 e8
  simp only [CallTree.children, List.map_cons, List.map_nil,
    octreeDevider_region b fuel field _ _ _ _ e1, octreeDevider_region b fuel field _ _ _ _ e2,
    octreeDevider_region b fuel field _ _ _ _ e3, octreeDevider_region b fuel field _ _ _ _ e4,
    octreeDevider_region b fuel field _ _ _ _ e5, octreeDevider_region b fuel field _ _ _ _ e6,
    octreeDevider_region b fuel field _ _ _ _ e7, octreeDevider_region b fuel field _ _ _ _ e8,
    halfEdge]

theorem eq_two_pow_of_cube_le (n : ℕ) (hn : 1 ≤ n) (h : n ^ 3 ≤ 8 ^ Nat.log 2 n) :
    n = 2 ^ Nat.log 2 n := by
  have h1 : 2 ^ Nat.log 2 n ≤ n := Nat.pow_log_le_self 2 (by omega)
  have h2 : (8 : ℕ) ^ Nat.log 2 n = (2 ^ Nat.log 2 n) ^ 3 := by
    rw [← pow_mul, mul_comm, pow_mul]
    norm_num
  rw [h2] at h
  have h3 : n ≤ 2 ^ Nat.log 2 n := (Nat.pow_le_pow_iff_left (by norm_num)).1 h
  omega

example : edgeTwoOrder.length = 64 := by decide
example : (edgeTwoOrder.filter touchesCentre).length = 8 := by decide
example : (edgeTwoOrder.filter fun c => !touchesCentre c).length = 56 := by decide
example : List.Perm edgeTwoOrder edgeTwoGrid := by decide
example : List.Perm centreCellOrder centreCells := by decide
example : centreCells.Nodup := by decide

/-- The call tree of a run on a region of edge `2 ^ k` is `powTwoTree`, and the returned
count is the sum of the counts reported for the cells on which `buildCube` was invoked. -/
theorem octreeDevider_powTwoTree {Tri : Type} (b : BaseMeshBuilder Tri)
    (field : ParametricScalarField) (k fuel : ℕ) (o : Vec3_t ℝ) (hfuel : k + 1 ≤ fuel) :
    ∃ r, octreeDevider b fuel field o (2 ^ k) [] = some r ∧ r.2.2 = powTwoTree b field k o ∧
      r.1 = (r.2.2.cells.map fun q => (b.buildCube q field).1).sum := by
  refine octreeDevider_pow_two_induction b field
    (fun o k r => r.2.2 = powTwoTree b field k o ∧
      r.1 = (r.2.2.cells.map fun q => (b.buildCube q field).1).sum) ?_ ?_ ?_ k fuel o hfuel
  · intro o
    exact ⟨rfl, by simp [CallTree.cells]⟩
  · intro o k hp
    exact ⟨by rw [powTwoTree, if_pos hp], by simp [CallTree.cells]⟩
  · intro o k r1 r2 r3 r4 r5 r6 r7 r8 hp p1 p2 p3 p4 p5 p6 p7 p8
    refine ⟨?_, ?_⟩
    · rw [powTwoTree, if_neg hp, ← p1.1, ← p2.1, ← p3.1, ← p4.1, ← p5.1, ← p6.1, ← p7.1, ← p8.1]
    · simp only [CallTree.cells, List.map_append, List.sum_append, ← p1.2, ← p2.2, ← p3.2,
        ← p4.2, ← p5.2, ← p6.2, ← p7.2, ← p8.2]

/-- For the centre-seed field the prune test compares the squared threshold with the cap
`floatMax` and with the squared distance of the region centre from the domain centre. -/
theorem prune_centreSeed_iff {Tri : Type} (b : BaseMeshBuilder Tri)
    (hres : 0 < b.mGridResolution) (o : Vec3_t ℝ) (n : ℕ) :
    leftSideCondition b (centreSeedField b.mGridResolution) o n
        > rightSideCondition b (centreSeedField b.mGridResolution) n ↔
      3 * (n : ℝ) ^ 2 * b.mGridResolution ^ 2 < 4 * floatMax ∧
      3 * (n : ℝ) ^ 2 < 4 * ((o.x + (n : ℝ) / 2 - 4) ^ 2 + (o.y + (n : ℝ) / 2 - 4) ^ 2
        + (o.z + (n : ℝ) / 2 - 4) ^ 2) := by
  have h3 : Real.sqrt 3 ^ 2 = 3 := Real.sq_sqrt (by norm_num)
  have hT : 0 ≤ Real.sqrt 3 / 2 * ((n : ℝ) * b.mGridResolution) :=
    mul_nonneg (div_nonneg (Real.sqrt_nonneg _) (by norm_num))
      (mul_nonneg (Nat.cast_nonneg n) hres.le)
  have hr2 : 0 < b.mGridResolution ^ 2 := pow_pos hres 2
  unfold leftSideCondition rightSideCondition realEdgeSize evaluateFieldAt centreSeedField
  simp only [List.foldl_cons, List.foldl_nil, zero_add, gt_iff_lt]
  rw [Real.lt_sqrt hT, lt_min_iff, mul_pow, div_pow, h3]
  have hd : distanceSquared (midCubeOffset b o n)
      ⟨4 * b.mGridResolution, 4 * b.mGridResolution, 4 * b.mGridResolution⟩
      = b.mGridResolution ^ 2 * ((o.x + (n : ℝ) / 2 - 4) ^ 2 + (o.y + (n : ℝ) / 2 - 4) ^ 2
        + (o.z + (n : ℝ) / 2 - 4) ^ 2) := by
    unfold distanceSquared midCubeOffset halfEdge
    ring
  rw [hd]
  constructor
  · rintro ⟨h1, h2⟩
    refine ⟨by linarith, ?_⟩
    have h2' : b.mGridResolution ^ 2 * (3 * (n : ℝ) ^ 2)
        < b.mGridResolution ^ 2 * (4 * ((o.x + (n : ℝ) / 2 - 4) ^ 2
          + (o.y + (n : ℝ) / 2 - 4) ^ 2 + (o.z + (n : ℝ) / 2 - 4) ^ 2)) := by linarith
    exact lt_of_mul_lt_mul_left h2' hr2.le
  · rintro ⟨h1, h2⟩
    have h2' := mul_lt_mul_of_pos_left h2 hr2
    constructor <;> linarith

theorem prune_two {Tri : Type} (b : BaseMeshBuilder Tri) (hres : 0 < b.mGridResolution)
    (hcap : 12 * b.mGridResolution ^ 2 ≤ floatMax) (x y z : ℝ) :
    leftSideCondition b (centreSeedField b.mGridResolution) ⟨x, y, z⟩ 2
        > rightSideCondition b (centreSeedField b.mGridResolution) 2 ↔
      3 < (x - 3) ^ 2 + (y - 3) ^ 2 + (z - 3) ^ 2 := by
  rw [prune_centreSeed_iff b hres]
  have hr2 : 0 < b.mGridResolution ^ 2 := pow_pos hres 2
  push_cast
  constructor
  · rintro ⟨_, h⟩
    nlinarith
  · intro h
    constructor <;> nlinarith

theorem prune_four {Tri : Type} (b : BaseMeshBuilder Tri) (hres : 0 < b.mGridResolution)
    (x y z : ℝ) :
    leftSideCondition b (centreSeedField b.mGridResolution) ⟨x, y, z⟩ 4
        > rightSideCondition b (centreSeedField b.mGridResolution) 4 ↔
      12 * b.mGridResolution ^ 2 < floatMax ∧ 12 < (x - 2) ^ 2 + (y - 2) ^ 2 + (z - 2) ^ 2 := by
  rw [prune_centreSeed_iff b hres]
  push_cast
  constructor
  · rintro ⟨h1, h⟩
    constructor <;> nlinarith
  · rintro ⟨h1, h⟩
    constructor <;> nlinarith

theorem prune_eight {Tri : Type} (b : BaseMeshBuilder Tri) (hres : 0 < b.mGridResolution)
    (x y z : ℝ) :
    leftSideCondition b (centreSeedField b.mGridResolution) ⟨x, y, z⟩ 8
        > rightSideCondition b (centreSeedField b.mGridResolution) 8 ↔
      48 * b.mGridResolution ^ 2 < floatMax ∧ 48 < x ^ 2 + y ^ 2 + z ^ 2 := by
  rw [prune_centreSeed_iff b hres]
  push_cast
  constructor
  · rintro ⟨h1, h⟩
    constructor <;> nlinarith
  · rintro ⟨h1, h⟩
    constructor <;> nlinarith

set_option maxHeartbeats 4000000 in
set_option maxRecDepth 100000 in
theorem centreSeed_splitRegions {Tri : Type} (b : BaseMeshBuilder Tri)
    (hres : 0 < b.mGridResolution) (hcap : 12 * b.mGridResolution ^ 2 ≤ floatMax) :
    (powTwoTree b (centreSeedField b.mGridResolution) 3 ⟨0, 0, 0⟩).splitRegions =
      [(⟨0, 0, 0⟩, 8),
       (⟨0, 0, 0⟩, 4), (⟨2, 2, 2⟩, 2), (⟨4, 0, 0⟩, 4), (⟨4, 2, 2⟩, 2),
       (⟨0, 4, 0⟩, 4), (⟨2, 4, 2⟩, 2), (⟨0, 0, 4⟩, 4), (⟨2, 2, 4⟩, 2),
       (⟨4, 4, 0⟩, 4), (⟨4, 4, 2⟩, 2), (⟨4, 0, 4⟩, 4), (⟨4, 2, 4⟩, 2),
       (⟨0, 4, 4⟩, 4), (⟨2, 4, 4⟩, 2), (⟨4, 4, 4⟩, 4), (⟨4, 4, 4⟩, 2)] := by
  norm_num [powTwoTree, prune_two b hres hcap, prune_four b hres, prune_eight b hres,
    CallTree.splitRegions]

theorem prunedOrder_eq :
    (edgeTwoOrder.filter fun c => !touchesCentre c) = [
      (0, 0, 0), (2, 0, 0), (0, 2, 0), (0, 0, 2), (2, 2, 0), (2, 0, 2),
      (0, 2, 2), (4, 0, 0), (6, 0, 0), (4, 2, 0), (4, 0, 2), (6, 2, 0),
      (6, 0, 2), (6, 2, 2), (0, 4, 0), (2, 4, 0), (0, 6, 0), (0, 4, 2),
      (2, 6, 0), (0, 6, 2), (2, 6, 2), (0, 0, 4), (2, 0, 4), (0, 2, 4),
      (0, 0, 6), (2, 0, 6), (0, 2, 6), (2, 2, 6), (4, 4, 0), (6, 4, 0),
      (4, 6, 0), (6, 6, 0), (6, 4, 2), (4, 6, 2), (6, 6, 2), (4, 0, 4),
      (6, 0, 4), (4, 0, 6), (6, 2, 4), (6, 0, 6), (4, 2, 6), (6, 2, 6),
      (0, 4, 4), (0, 6, 4), (0, 4, 6), (2, 6, 4), (2, 4, 6), (0, 6, 6),
      (2, 6, 6), (6, 4, 4), (4, 6, 4), (4, 4, 6), (6, 6, 4), (6, 4, 6),
      (4, 6, 6), (6, 6, 6)] := by
  decide

theorem centreCellOrder_eq :
    centreCellOrder = [
      (2, 2, 2), (3, 2, 2), (2, 3, 2), (2, 2, 3), (3, 3, 2), (3, 2, 3),
      (2, 3, 3), (3, 3, 3), (4, 2, 2), (5, 2, 2), (4, 3, 2), (4, 2, 3),
      (5, 3, 2), (5, 2, 3), (4, 3, 3), (5, 3, 3), (2, 4, 2), (3, 4, 2),
      (2, 5, 2), (2, 4, 3), (3, 5, 2), (3, 4, 3), (2, 5, 3), (3, 5, 3),
      (2, 2, 4), (3, 2, 4), (2, 3, 4), (2, 2, 5), (3, 3, 4), (3, 2, 5),
      (2, 3, 5), (3, 3, 5), (4, 4, 2), (5, 4, 2), (4, 5, 2), (4, 4, 3),
      (5, 5, 2), (5, 4, 3), (4, 5, 3), (5, 5, 3), (4, 2, 4), (5, 2, 4),
      (4, 3, 4), (4, 2, 5), (5, 3, 4), (5, 2, 5), (4, 3, 5), (5, 3, 5),
      (2, 4, 4), (3, 4, 4), (2, 5, 4), (2, 4, 5), (3, 5, 4), (3, 4, 5),
      (2, 5, 5), (3, 5, 5), (4, 4, 4), (5, 4, 4), (4, 5, 4), (4, 4, 5),
      (5, 5, 4), (5, 4, 5), (4, 5, 5), (5, 5, 5)] := by
  decide

set_option maxHeartbeats 4000000 in
set_option maxRecDepth 100000 in
theorem centreSeed_prunedRegions {Tri : Type} (b : BaseMeshBuilder Tri)
    (hres : 0 < b.mGridResolution) (hcap : 12 * b.mGridResolution ^ 2 ≤ floatMax) :
    (powTwoTree b (centreSeedField b.mGridResolution) 3 ⟨0, 0, 0⟩).prunedRegions =
      (edgeTwoOrder.filter fun c => !touchesCentre c).map fun c => (natVec c, 2) := by
  rw [prunedOrder_eq]
  norm_num [powTwoTree, prune_two b hres hcap, prune_four b hres, prune_eight b hres,
    CallTree.prunedRegions, natVec]

set_option maxHeartbeats 4000000 in
set_option maxRecDepth 100000 in
theorem centreSeed_cells {Tri : Type} (b : BaseMeshBuilder Tri)
    (hres : 0 < b.mGridResolution) (hcap : 12 * b.mGridResolution ^ 2 ≤ floatMax) :
    (powTwoTree b (centreSeedField b.mGridResolution) 3 ⟨0, 0, 0⟩).cells =
      centreCellOrder.map natVec := by
  rw [centreCellOrder_eq]
  norm_num [powTwoTree, prune_two b hres hcap, prune_four b hres, prune_eight b hres,
    CallTree.cells, natVec]

/-- At the centre of an octant of edge 4 of the domain the centre-seed field equals the
threshold. -/
theorem centreSeed_octant_tie {Tri : Type} (b : BaseMeshBuilder Tri)
    (hres : 0 < b.mGridResolution) (hcap : 12 * b.mGridResolution ^ 2 ≤ floatMax)
    (dx dy dz : ℕ) (hx : dx ≤ 1) (hy : dy ≤ 1) (hz : dz ≤ 1) :
    leftSideCondition b (centreSeedField b.mGridResolution) (octantOrigin ⟨0, 0, 0⟩ 8 dx dy dz) 4
      = rightSideCondition b (centreSeedField b.mGridResolution) 4 := by
  have h3 : Real.sqrt 3 * Real.sqrt 3 = 3 := Real.mul_self_sqrt (by norm_num)
  have hT : 0 ≤ Real.sqrt 3 / 2 * (((4 : ℕ) : ℝ) * b.mGridResolution) :=
    mul_nonneg (div_nonneg (Real.sqrt_nonneg _) (by norm_num))
      (mul_nonneg (Nat.cast_nonneg 4) hres.le)
  have hd : distanceSquared (midCubeOffset b (octantOrigin ⟨0, 0, 0⟩ 8 dx dy dz) 4)
      ⟨4 * b.mGridResolution, 4 * b.mGridResolution, 4 * b.mGridResolution⟩
      = 12 * b.mGridResolution ^ 2 := by
    have hc : ∀ d : ℕ, d ≤ 1 → ((d : ℝ) * 4 - 2) * ((d : ℝ) * 4 - 2) = 4 := by
      intro d hd
      have : d = 0 ∨ d = 1 := by omega
      rcases this with rfl | rfl <;> norm_num
    have e : ∀ d : ℕ, d ≤ 1 →
        ((0 + (d : ℝ) * ((8 : ℕ) : ℝ) / 2 + ((4 : ℕ) : ℝ) / 2) * b.mGridResolution
            - 4 * b.mGridResolution)
          * ((0 + (d : ℝ) * ((8 : ℕ) : ℝ) / 2 + ((4 : ℕ) : ℝ) / 2) * b.mGridResolution
            - 4 * b.mGridResolution) = 4 * b.mGridResolution ^ 2 := by
      intro d hd
      have := hc d hd
      push_cast
      linear_combination b.mGridResolution ^ 2 * this
    unfold distanceSquared midCubeOffset octantOrigin halfEdge
    simp only
    rw [e dx hx, e dy hy, e dz hz]
    ring
  unfold leftSideCondition rightSideCondition realEdgeSize evaluateFieldAt centreSeedField
  simp only [List.foldl_cons, List.foldl_nil, zero_add]
  rw [hd, min_eq_right hcap, Real.sqrt_eq_iff_mul_self_eq (by positivity) hT]
  push_cast
  linear_combination (-4 * b.mGridResolution ^ 2) * h3

/-- With a resolution of `2 ^ 64` the cap `floatMax` of the sampled field keeps every prune
test of a region of edge 2 or more from succeeding. -/
theorem hugeResolution_not_pruned (o : Vec3_t ℝ) (n : ℕ) (hn : 2 ≤ n) :
    ¬ leftSideCondition hugeResolutionBuilder (centreSeedField (2 ^ 64)) o n
      > rightSideCondition hugeResolutionBuilder (centreSeedField (2 ^ 64)) n := by
  have h := prune_centreSeed_iff hugeResolutionBuilder (by norm_num [hugeResolutionBuilder]) o n
  have e : hugeResolutionBuilder.mGridResolution = 2 ^ 64 := rfl
  rw [e] at h
  rw [h]
  rintro ⟨h1, -⟩
  have hn' : (2 : ℝ) ≤ (n : ℝ) := by exact_mod_cast hn
  have hn2 : (4 : ℝ) ≤ (n : ℝ) ^ 2 := by nlinarith
  have hM : floatMax < 2 ^ 128 := by norm_num [floatMax]
  have : (3 : ℝ) * 4 * (2 ^ 64) ^ 2 ≤ 3 * (n : ℝ) ^ 2 * (2 ^ 64) ^ 2 := by
    have : (0 : ℝ) ≤ (2 ^ 64) ^ 2 := by positivity
    nlinarith
  norm_num at this hM h1
  linarith

/-- If no prune test succeeds, the first unit cell of a region is visited. -/
theorem origin_mem_cells {Tri : Type} (b : BaseMeshBuilder Tri) (field : ParametricScalarField)
    (hnp : ∀ (o : Vec3_t ℝ) (n : ℕ), 2 ≤ n →
      ¬ leftSideCondition b field o n > rightSideCondition b field n) (k : ℕ) :
    ∀ o : Vec3_t ℝ, o ∈ (powTwoTree b field k o).cells := by
  induction k with
  | zero => intro o; simp [powTwoTree, CallTree.cells]
  | succ k ih =>
    intro o
    have h2 : 2 ≤ 2 ^ (k + 1) := by
      rw [pow_succ]
      have := Nat.one_le_two_pow (n := k)
      omega
    rw [powTwoTree, if_neg (hnp o _ h2)]
    simp only [CallTree.cells, List.mem_append]
    exact Or.inl (Or.inl (Or.inl (Or.inl (Or.inl (Or.inl (Or.inl (ih o)))))))

/-- If no prune test succeeds, the call tree has no pruned node. -/
theorem prunedRegions_nil_of_no_prune {Tri : Type} (b : BaseMeshBuilder Tri)
    (field : ParametricScalarField)
    (hnp : ∀ (o : Vec3_t ℝ) (n : ℕ), 2 ≤ n →
      ¬ leftSideCondition b field o n > rightSideCondition b field n) (k : ℕ) :
    ∀ o : Vec3_t ℝ, (powTwoTree b field k o).prunedRegions = [] := by
  induction k with
  | zero => intro o; rfl
  | succ k ih =>
    intro o
    have h2 : 2 ≤ 2 ^ (k + 1) := by
      rw [pow_succ]
      have := Nat.one_le_two_pow (n := k)
      omega
    rw [powTwoTree, if_neg (hnp o _ h2)]
    simp only [CallTree.prunedRegions, ih, List.append_nil]

theorem nearField_three_not_pruned :
    ¬ leftSideCondition (sampleBuilder 3) nearField ⟨0, 0, 0⟩ 3
      > rightSideCondition (sampleBuilder 3) nearField 3 := by
  have h1 : leftSideCondition (sampleBuilder 3) nearField ⟨0, 0, 0⟩ 3 ≤ 1 := by
    unfold leftSideCondition evaluateFieldAt nearField
    simp only [List.foldl_cons, List.foldl_nil]
    rw [← Real.sqrt_one]
    apply Real.sqrt_le_sqrt
    refine le_trans (min_le_right _ _) ?_
    norm_num [distanceSquared, midCubeOffset, halfEdge, sampleBuilder]
  have h2 : (1 : ℝ) ≤ rightSideCondition (sampleBuilder 3) nearField 3 := by
    unfold rightSideCondition realEdgeSize
    simp only [nearField, sampleBuilder]
    have h4 : (0 : ℝ) ≤ Real.sqrt 3 / 2 * (((3 : ℕ) : ℝ) * 1) := by positivity
    linarith
  exact not_lt.2 (le_trans h1 h2)

/-! ### The claims of the specification -/

/-- Claim C4, amended (field sampler).  If some seed point lies at a squared distance of at
most `floatMax` from `pos`, then `evaluateFieldAt pos field` is the Euclidean distance from
`pos` to the closest seed point: the square root of the least squared distance, which is the
least of the distances. -/
theorem evaluateFieldAt_nearest (pos : Vec3_t ℝ) (field : ParametricScalarField)
    (hrange : ∃ s ∈ field.getPoints, distanceSquared pos s ≤ floatMax) :
    IsNearestSeedDistance pos field (evaluateFieldAt pos field) := by
  obtain ⟨s, hs, h⟩ := foldl_min_attained (distanceSquared pos) field.getPoints floatMax hrange
  refine ⟨s, hs, fun s' hs' => ?_, ?_, fun s' hs' => ?_⟩
  · rw [← h]
    exact foldl_min_le_mem _ _ _ s' hs'
  · unfold evaluateFieldAt
    rw [h]
  · unfold evaluateFieldAt
    exact Real.sqrt_le_sqrt (foldl_min_le_mem _ _ _ s' hs')

/-- Witness for Claim C4, amended: two seeds at distances 5 and 1 from the origin. -/
theorem evaluateFieldAt_nearest_witness :
    IsNearestSeedDistance ⟨0, 0, 0⟩ ⟨[⟨3, 4, 0⟩, ⟨1, 0, 0⟩], 0⟩
      (evaluateFieldAt ⟨0, 0, 0⟩ ⟨[⟨3, 4, 0⟩, ⟨1, 0, 0⟩], 0⟩) :=
  evaluateFieldAt_nearest ⟨0, 0, 0⟩ ⟨[⟨3, 4, 0⟩, ⟨1, 0, 0⟩], 0⟩
    ⟨⟨1, 0, 0⟩, by simp, by norm_num [distanceSquared, floatMax]⟩

/-- Counterexample to Claim C4 as stated.  For the single seed `(2^64, 0, 0)` and the position
`(0, 0, 0)` the squared distance `2^128` exceeds the initial value `floatMax` of the running
minimum, so `evaluateFieldAt` returns `sqrt floatMax`, which is not the distance `2^64` to the
closest (and only) seed. -/
theorem evaluateFieldAt_far_seed :
    (⟨[⟨2 ^ 64, 0, 0⟩], 0⟩ : ParametricScalarField).getPoints ≠ [] ∧
    ¬ IsNearestSeedDistance ⟨0, 0, 0⟩ ⟨[⟨2 ^ 64, 0, 0⟩], 0⟩
      (evaluateFieldAt ⟨0, 0, 0⟩ ⟨[⟨2 ^ 64, 0, 0⟩], 0⟩) := by
  refine ⟨by simp, ?_⟩
  rintro ⟨s, hs, -, h, -⟩
  simp only [List.mem_singleton] at hs
  subst hs
  have h1 : evaluateFieldAt ⟨0, 0, 0⟩ ⟨[⟨2 ^ 64, 0, 0⟩], 0⟩ = Real.sqrt floatMax := by
    unfold evaluateFieldAt
    simp only [List.foldl_cons, List.foldl_nil]
    congr 1
    apply min_eq_left
    norm_num [distanceSquared, floatMax]
  rw [h1] at h
  have h2 : Real.sqrt floatMax < Real.sqrt (distanceSquared ⟨0, 0, 0⟩ ⟨2 ^ 64, 0, 0⟩) := by
    apply Real.sqrt_lt_sqrt floatMax_pos.le
    norm_num [distanceSquared, floatMax]
  exact absurd h h2.ne

/-- Claim C7 (base case).  A call with edge `mCutOff` invokes `buildCube` once at its origin,
returns the count `buildCube` reports and the sink with the emitted triangles appended; its
call tree is a single `cell` node, so there is no field sample for pruning and no recursive
call.  In particular `marchCubes` on a domain of size 1 is one invocation of `buildCube` at
`(0, 0, 0)`, whatever the field. -/
theorem octreeDevider_base_case {Tri : Type} (b : BaseMeshBuilder Tri) (fuel : ℕ)
    (field : ParametricScalarField) (o : Vec3_t ℝ) (sink : List Tri) :
    octreeDevider b (fuel + 1) field o mCutOff sink =
      some ((b.buildCube o field).1, (b.buildCube o field).2.foldl emitTriangle sink,
        CallTree.cell o) ∧
    (CallTree.cell o).cells = [o] ∧ (CallTree.cell o).samples = [] ∧
    (CallTree.cell o).children = [] ∧
    ∀ (res : ℝ) (buildCube : Vec3_t ℝ → ParametricScalarField → ℕ × List Tri),
      marchCubes ⟨1, res, buildCube⟩ (fuel + 1) field sink =
        some ((buildCube ⟨0, 0, 0⟩ field).1, (buildCube ⟨0, 0, 0⟩ field).2.foldl emitTriangle sink,
          CallTree.cell ⟨0, 0, 0⟩) := by
  refine ⟨?_, rfl, rfl, rfl, fun res buildCube => ?_⟩
  · rw [foldl_emitTriangle]
    exact octreeDevider_leaf b fuel field o sink
  · rw [foldl_emitTriangle]
    exact octreeDevider_leaf _ fuel field _ sink

/-- Claim C9, amended (repeated runs).  If `marchCubes` returns on a builder, a second run on
the same builder with the same field returns the same count and the same call tree, and it
appends to the sink the very triangles the first run appended: the sink is not cleared
between runs. -/
theorem marchCubes_twice {Tri : Type} (b : BaseMeshBuilder Tri) (field : ParametricScalarField)
    (fuel : ℕ) (sink : List Tri) (r : ℕ × List Tri × CallTree)
    (hrun : marchCubes b fuel field sink = some r) :
    ∃ ts, r.2.1 = sink ++ ts ∧
      marchCubes b fuel field r.2.1 = some (r.1, r.2.1 ++ ts, r.2.2) := by
  unfold marchCubes at hrun ⊢
  rw [octreeDevider_frame] at hrun
  rw [octreeDevider_frame]
  rcases h : octreeDevider b fuel field Vec3_t.zero b.mGridSize [] with _ | r0
  · rw [h] at hrun
    simp at hrun
  · rw [h] at hrun
    simp only [Option.map_some', Option.some.injEq] at hrun
    subst hrun
    exact ⟨r0.2.1, rfl, rfl⟩

/-- Witness for Claim C9, amended: a single-cell domain whose cell emits one triangle. -/
theorem marchCubes_twice_witness :
    ∃ ts, [()] = [] ++ ts ∧
      marchCubes (constantBuilder 1) 1 nearField [()]
        = some (1, [()] ++ ts, CallTree.cell Vec3_t.zero) :=
  marchCubes_twice (constantBuilder 1) nearField 1 [] (1, [()], CallTree.cell Vec3_t.zero)
    (constantBuilder_run [])

/-- Counterexample to Claim C9 as stated.  On a single-cell domain whose cell emits one
triangle the first run leaves one triangle in the sink and the second run, on the same
builder, leaves two: the sink does not hold the same multiset after both runs. -/
theorem marchCubes_twice_sink_grows :
    marchCubes (constantBuilder 1) 1 nearField [] = some (1, [()], CallTree.cell Vec3_t.zero) ∧
    marchCubes (constantBuilder 1) 1 nearField [()]
      = some (1, [(), ()], CallTree.cell Vec3_t.zero) ∧
    (([(), ()] : List Unit) : Multiset Unit) ≠ (([()] : List Unit) : Multiset Unit) :=
  ⟨constantBuilder_run [], constantBuilder_run [()], by decide⟩

/-- Claim C10 (termination).  On a domain of edge `2 ^ k` the recursion started by
`marchCubes` returns with fuel `k + 1`, that is with call chains of at most `k` levels below
the top-level call, and the call tree of the run has depth at most `k`. -/
theorem marchCubes_terminates {Tri : Type} (b : BaseMeshBuilder Tri) (field : ParametricScalarField)
    (k fuel : ℕ) (sink : List Tri) (hsize : b.mGridSize = 2 ^ k) (hfuel : k + 1 ≤ fuel) :
    ∃ r, marchCubes b fuel field sink = some r ∧ r.2.2.depth ≤ k := by
  obtain ⟨r, hr, hd⟩ := octreeDevider_pow_two_induction b field (fun _ k r => r.2.2.depth ≤ k)
    (fun _ => le_refl 0) (fun _ _ _ => Nat.zero_le _)
    (fun o k r1 r2 r3 r4 r5 r6 r7 r8 _ p1 p2 p3 p4 p5 p6 p7 p8 => by
      simp only [CallTree.depth]
      omega) k fuel Vec3_t.zero hfuel
  refine ⟨(r.1, sink ++ r.2.1, r.2.2), ?_, hd⟩
  unfold marchCubes
  rw [hsize, octreeDevider_frame, hr]
  rfl

/-- Witness for Claim C10: a domain of size 4. -/
theorem marchCubes_terminates_witness :
    ∃ r, marchCubes (sampleBuilder 4) 3 nearField [] = some r ∧ r.2.2.depth ≤ 2 :=
  marchCubes_terminates (sampleBuilder 4) nearField 2 3 [] rfl (le_refl 3)

/-- Claim C14 (the sampled field is 1-Lipschitz).  For every field and all positions `p`,
`q`, the values of `evaluateFieldAt` at `p` and `q` differ by at most the Euclidean distance
of `p` and `q`.  The non-emptiness of the seed set is not needed. -/
theorem evaluateFieldAt_lipschitz (field : ParametricScalarField) (p q : Vec3_t ℝ) :
    |evaluateFieldAt p field - evaluateFieldAt q field| ≤ Real.sqrt (distanceSquared p q) := by
  have h1 := evaluateFieldAt_le_add q p field
  have h2 := evaluateFieldAt_le_add p q field
  rw [distanceSquared_comm q p] at h2
  rw [abs_le]
  constructor <;> linarith

end ParallelBuilder
